import Mathlib

/-!
# Verification of the wave-function-collapse solver

Shallow embedding of the solver from `src/js` (files `lib/layouts.js`,
`lib/class.tile.js`, `index.js`).  JavaScript strings of '0'/'1' pixels are
modelled as `List Char`; the board array is a `List Tile`; the in-place
mutations of the original become explicit state passing; a thrown exception
becomes an explicit error value threaded next to the (already mutated)
state.  `Math.random`-based choices are modelled by injected pick functions
`Nat → Nat` (the JS expression `Math.floor(Math.random() * n)` always lies
in `[0, n)`, which theorems carry as a hypothesis where it matters).
The board dimensions (constants 30×30 in `index.js`) are parameters here.
-/

/-- The names of the five tile variants of `layouts.js` (the commented-out
extra pieces are not part of the default catalog). -/
inductive VName where
  | north | east | south | west | blank
deriving DecidableEq, Repr

/-- JS object key order of the `layouts` object: insertion order. -/
def VName.all : List VName := [.north, .east, .south, .west, .blank]

/-- A tile layout: three rows of three '0'/'1' pixels. -/
abbrev Layout := List (List Char)

/-- The default variant catalog from `layouts.js`. -/
def layouts : VName → Layout
  | .north => [['0','1','0'], ['1','1','1'], ['0','0','0']]
  | .east  => [['0','1','0'], ['0','1','1'], ['0','1','0']]
  | .south => [['0','0','0'], ['1','1','1'], ['0','1','0']]
  | .west  => [['0','1','0'], ['1','1','0'], ['0','1','0']]
  | .blank => [['0','0','0'], ['0','0','0'], ['0','0','0']]

/-- The four cardinal directions, in the JS iteration order of the
`neighbors` / `connections` objects. -/
inductive Dir where
  | north | east | south | west
deriving DecidableEq, Repr

def Dir.all : List Dir := [.north, .east, .south, .west]

/-- The direction of the facing edge: when looking from a tile towards its
neighbor in direction `d`, the neighbor's connector fetched by
`findPossibleTiles` is its `opp d` connector. -/
def Dir.opp : Dir → Dir
  | .north => .south
  | .east  => .west
  | .south => .north
  | .west  => .east

/-- Per-direction storage, mirroring the JS objects keyed by
north/east/south/west. -/
structure DirMap (α : Type) where
  north : α
  east : α
  south : α
  west : α
deriving DecidableEq, Repr

def DirMap.get (m : DirMap α) : Dir → α
  | .north => m.north
  | .east  => m.east
  | .south => m.south
  | .west  => m.west

def DirMap.set (m : DirMap α) : Dir → α → DirMap α
  | .north, a => { m with north := a }
  | .east,  a => { m with east := a }
  | .south, a => { m with south := a }
  | .west,  a => { m with west := a }

def DirMap.const (a : α) : DirMap α := ⟨a, a, a, a⟩

/-- Neighbor status values of `class.tile.js`: `null` (out of bounds),
`false` (uncollapsed), `true` (collapsed). -/
inductive NStatus where
  | oob | unc | col
deriving DecidableEq, Repr

/-- One board cell (`class Tile`).  `possibleTiles` keeps only the variant
names (JS keys); the stored layout values are unmodified copies of
`layouts[name]`, so the embedding recovers them as `layouts name`. -/
structure Tile where
  position : Nat
  collapsed : Bool
  facing : VName
  layout : Layout
  neighbors : DirMap NStatus
  connections : DirMap (Option (List Char))
  possibleTiles : List VName
deriving DecidableEq, Repr

/-- A freshly constructed tile (`new Tile(position)`). -/
def Tile.mk0 (position : Nat) : Tile where
  position := position
  collapsed := false
  facing := .blank
  layout := layouts .blank
  neighbors := DirMap.const .unc
  connections := DirMap.const none
  possibleTiles := VName.all

/-- Stand-in for the `undefined` a JS out-of-range array read yields.  Its
empty candidate list makes `collapse` fail on it instead of crashing, and
its `none` connections make narrowing against it raise the type-error
outcome; no in-bounds computation ever reads it. -/
def Tile.dflt : Tile where
  position := 0
  collapsed := false
  facing := .blank
  layout := layouts .blank
  neighbors := DirMap.const .unc
  connections := DirMap.const none
  possibleTiles := []

abbrev Board := List Tile

/-- Board read, `board[i]` (JS yields `undefined` out of range). -/
def bget (b : Board) (i : Nat) : Tile := b.getD i Tile.dflt

def Tile.getEntropy (t : Tile) : Nat := t.possibleTiles.length

def Tile.isCollapsed (t : Tile) : Bool := t.collapsed

def Tile.getConnector (t : Tile) (d : Dir) : Option (List Char) :=
  t.connections.get d

/-- The unchecked neighbor index arithmetic used by `findPossibleTiles` and
by the cascade in `collapse`. -/
def targetInt (p : Nat) (w : Nat) (d : Dir) : Int :=
  match d with
  | .north => (p : Int) - w
  | .east  => (p : Int) + 1
  | .south => (p : Int) + w
  | .west  => (p : Int) - 1

/-- The same index as a `Nat` (always applied when the index is known to be
nonnegative). -/
def targetNat (p : Nat) (w : Nat) (d : Dir) : Nat := (targetInt p w d).toNat

/-- The guarded index computed inside `findNeighbors`: east/west keep the
default `-1` when the step would wrap across a row boundary.  JS `%` on
integers is truncated remainder, i.e. `Int.tmod`. -/
def fnTarget (p : Nat) (w : Nat) (d : Dir) : Int :=
  match d with
  | .north => (p : Int) - w
  | .east  => if ((p : Int) + 1).tmod w ≠ 0 then (p : Int) + 1 else -1
  | .south => (p : Int) + w
  | .west  => if ((p : Int) - 1).tmod w ≠ (w : Int) - 1 then (p : Int) - 1 else -1

/-- One direction of `findNeighbors`: an `oob` mark is permanent; otherwise
the status is set to `col` exactly when the in-bounds target is collapsed,
and is left unchanged in every other case. -/
def fnStatus (b : Board) (w : Nat) (p : Nat) (old : NStatus) (d : Dir) : NStatus :=
  if old = .oob then .oob
  else
    let ti := fnTarget p w d
    if 0 ≤ ti ∧ ti < (b.length : Int) then
      if (bget b ti.toNat).isCollapsed then .col else old
    else .oob

/-- `Tile.findNeighbors(board, width)`.  The JS loop updates the four keys
independently, reading only other tiles' `collapsed` flags. -/
def findNeighbors (b : Board) (w : Nat) (t : Tile) : Tile :=
  { t with neighbors :=
      ⟨fnStatus b w t.position (t.neighbors.get .north) .north,
       fnStatus b w t.position (t.neighbors.get .east) .east,
       fnStatus b w t.position (t.neighbors.get .south) .south,
       fnStatus b w t.position (t.neighbors.get .west) .west⟩ }

/-- Number of '1' pixels in an edge string
(JS `str.split('1').length - 1`). -/
def count1 (s : List Char) : Nat := s.count '1'

/-- JS `str.charAt(j)`: a one-character string, or the empty string when
out of range. -/
def charAt (row : List Char) (j : Nat) : List Char := (row.drop j).take 1

/-- The candidate edge string that `findPossibleTiles` derives from a
candidate layout for direction `dir` (rows 0/2, or column 2/0 read with a
hardcoded three-iteration loop). -/
def fptEdge (l : Layout) (d : Dir) : List Char :=
  match d with
  | .north => l.getD 0 []
  | .east  => ((List.range 3).map (fun i => charAt (l.getD i []) 2)).flatten
  | .south => l.getD 2 []
  | .west  => ((List.range 3).map (fun i => charAt (l.getD i []) 0)).flatten

/-- The connection string computed by `generateConnections` for one
direction: `'blank'` is special-cased to `"000"`, otherwise rows `0` /
`length-1` or the columns, looping over the layout's actual length. -/
def genEdge (facing : VName) (l : Layout) (d : Dir) : List Char :=
  if facing = .blank then ['0', '0', '0']
  else
    match d with
    | .north => l.getD 0 []
    | .east  => ((List.range l.length).map (fun i => charAt (l.getD i []) 2)).flatten
    | .south => l.getD (l.length - 1) []
    | .west  => ((List.range l.length).map (fun i => charAt (l.getD i []) 0)).flatten

/-- `Tile.generateConnections()`. -/
def generateConnections (t : Tile) : Tile :=
  { t with connections :=
      ⟨some (genEdge t.facing t.layout .north),
       some (genEdge t.facing t.layout .east),
       some (genEdge t.facing t.layout .south),
       some (genEdge t.facing t.layout .west)⟩ }

/-- The error outcomes a `findPossibleTiles` call can surface: the explicit
`throw new Error("No tiles possible...")`, or the TypeError a JS call would
hit when reading a connector that is still `null` (never reached in valid
states). -/
inductive NarrowErr where
  | contradiction | typeError
deriving DecidableEq, Repr

/-- The elimination test of `findPossibleTiles`: a candidate edge is
removed when the neighbor's connector is constrained (≤ 1 active pixel),
the candidate's own facing edge is constrained too, and the two strings
differ (`localeCompare !== 0`). -/
def elimB (c e : List Char) : Bool :=
  decide (count1 c ≤ 1) && decide (count1 e ≤ 1) && decide (e ≠ c)

/-- The connector string a tile at position `p` reads from its neighbor in
direction `d` (`board[targetIndex].getConnector(<opposite side>)`). -/
def connAt (b : Board) (w p : Nat) (d : Dir) : Option (List Char) :=
  (bget b (targetNat p w d)).getConnector d.opp

/-- Processing of a single collapsed direction inside `findPossibleTiles`:
fetch the neighbor's facing connector and filter the candidate list. -/
def narrowDir (b : Board) (w : Nat) (t : Tile) (d : Dir) :
    Tile × Option NarrowErr :=
  match connAt b w t.position d with
  | none => (t, some .typeError)
  | some c =>
      ({ t with possibleTiles :=
          t.possibleTiles.filter fun v => !elimB c (fptEdge (layouts v) d) },
       none)

/-- The direction loop of `findPossibleTiles`: only directions whose stored
neighbor status is `true` (collapsed) are processed. -/
def narrowLoop (b : Board) (w : Nat) : Tile → List Dir → Tile × Option NarrowErr
  | t, [] => (t, none)
  | t, d :: ds =>
      if t.neighbors.get d = .col then
        match narrowDir b w t d with
        | (t', some e) => (t', some e)
        | (t', none) => narrowLoop b w t' ds
      else narrowLoop b w t ds

/-- `Tile.findPossibleTiles(board, width)`: process the four directions,
then throw if the tile is uncollapsed and no candidate remains. -/
def findPossibleTiles (b : Board) (w : Nat) (t : Tile) :
    Tile × Option NarrowErr :=
  match narrowLoop b w t Dir.all with
  | (t', some e) => (t', some e)
  | (t', none) =>
      (t', if t'.collapsed = false ∧ t'.possibleTiles = [] then
             some .contradiction
           else none)

/-- The cascade loop at the end of `Tile.collapse`: each direction whose
stored status is strictly `false` (uncollapsed) has its tile re-run
`findNeighbors` then `findPossibleTiles`; a thrown contradiction stops the
loop with the board in its partially cascaded state. -/
def cascadeLoop (w p : Nat) (nb : DirMap NStatus) :
    Board → List Dir → Board × Option NarrowErr
  | b, [] => (b, none)
  | b, d :: ds =>
      if nb.get d = .unc then
        let tgt := targetNat p w d
        let b1 := b.set tgt (findNeighbors b w (bget b tgt))
        match findPossibleTiles b1 w (bget b1 tgt) with
        | (t', some e) => (b1.set tgt t', some e)
        | (t', none) => cascadeLoop w p nb (b1.set tgt t') ds
      else cascadeLoop w p nb b ds

/-- The net effect of one cascade step on the tile at `q` (the cascade only
ever reads board data that stays fixed while it runs, so each step is this
per-tile update against the board as it was when the cascade began). -/
def cascadeUpd (bref : Board) (w q : Nat) : Tile × Option NarrowErr :=
  findPossibleTiles bref w (findNeighbors bref w (bget bref q))

/-- `Tile.collapse(board, width)`.  Result: the board state (including the
mutations already performed when an exception escapes), and either
`.ok success` mirroring the JS return value or `.error e` mirroring a
throw from the cascade. -/
def collapse (b : Board) (w : Nat) (p : Nat) (pick : Nat → Nat) :
    Board × Except NarrowErr Bool :=
  let t := bget b p
  let possibleLayouts := t.possibleTiles
  if possibleLayouts.length ≠ 0 then
    let facing := possibleLayouts.getD (pick possibleLayouts.length) .blank
    let t1 := generateConnections { t with facing := facing, layout := layouts facing }
    let t2 := { t1 with collapsed := true, possibleTiles := [] }
    let b1 := b.set p t2
    match cascadeLoop w p t2.neighbors b1 Dir.all with
    | (b2, some e) => (b2, .error e)
    | (b2, none) => (b2, .ok true)
  else (b, .ok false)

/-- The tile value `collapse` installs at the collapsing position before
cascading: chosen variant, its layout, generated connections, collapsed
flag set, candidate set cleared. -/
def collapsedTile (b : Board) (p : Nat) (pick : Nat → Nat) : Tile :=
  let t := bget b p
  let facing := t.possibleTiles.getD (pick t.possibleTiles.length) .blank
  { generateConnections { t with facing := facing, layout := layouts facing } with
      collapsed := true, possibleTiles := [] }

/-- `resetBoard()` from `index.js`, parametrized by the dimensions: build
`height*width` fresh tiles, then run the neighbor pass over every index in
order. -/
def resetBoard (w h : Nat) : Board :=
  let b0 := (List.range (h * w)).map Tile.mk0
  (List.range (h * w)).foldl (fun b i => b.set i (findNeighbors b w (bget b i))) b0

/-- JS `Math.min(...list)`: `none` stands for the `Infinity` returned on an
empty argument list. -/
def jsMin : List Nat → Option Nat
  | [] => none
  | x :: xs => some (xs.foldl Nat.min x)

/-- `chooseNextTile()` from `index.js`, with the random tie-break choice
injected; returns the chosen board index (the JS function returns the tile,
and `undefined` — here `none` — when no uncollapsed tile has nonzero
entropy). -/
def chooseNextTile (b : Board) (pick : Nat → Nat) : Option Nat :=
  let entropyArray := b.map fun t => if t.isCollapsed then 0 else t.getEntropy
  match jsMin (entropyArray.filter fun v => v ≠ 0) with
  | none => none
  | some min =>
      let entropicTiles :=
        (List.range entropyArray.length).filter fun i => entropyArray.getD i 0 = min
      if entropicTiles.length = 1 then some (entropicTiles.getD 0 0)
      else some (entropicTiles.getD (pick entropicTiles.length) 0)

/-- The error outcomes observable at the driver: the cascade contradiction,
the explicit "No possible solutions" throw of `iterateLoop`, and the
TypeError of calling `collapse` on an `undefined` tile. -/
inductive JsErr where
  | contradiction | noSolutions | typeError
deriving DecidableEq, Repr

/-- `iterateLoop()` from `index.js`: select a tile, collapse it, throw when
the collapse fails; otherwise report the collapsed position. -/
def iterateLoop (b : Board) (w : Nat) (pickTile pickVariant : Nat → Nat) :
    Board × Except JsErr Nat :=
  match chooseNextTile b pickTile with
  | none => (b, .error .typeError)
  | some p =>
      match collapse b w p pickVariant with
      | (b', .error .contradiction) => (b', .error .contradiction)
      | (b', .error .typeError) => (b', .error .typeError)
      | (b', .ok true) => (b', .ok p)
      | (b', .ok false) => (b', .error .noSolutions)

/-- `doCollapse()` from `index.js`: one driver step; any exception from
`iterateLoop` is caught and reported as `false`. -/
def doCollapse (b : Board) (w : Nat) (pickTile pickVariant : Nat → Nat) :
    Board × Bool :=
  match iterateLoop b w pickTile pickVariant with
  | (b', .error _) => (b', false)
  | (b', .ok _) => (b', true)

/-! ## Specification-level predicates -/

/-- An edge signature is constrained when it has at most one active
pixel. -/
def constrainedSig (s : List Char) : Prop := count1 s ≤ 1

instance (s : List Char) : Decidable (constrainedSig s) := by
  unfold constrainedSig; infer_instance

/-- A direction `d` of position `p` is a real adjacency on a `w`-wide board
of `len` cells: the guarded index of `findNeighbors` lands inside the
board. -/
def inBds (w len p : Nat) (d : Dir) : Prop :=
  0 ≤ fnTarget p w d ∧ fnTarget p w d < (len : Int)

instance (w len p : Nat) (d : Dir) : Decidable (inBds w len p d) := by
  unfold inBds; infer_instance

/-- The stored neighbor status of the cell at `i` matches the board:
`oob` for non-adjacencies, and otherwise the target's collapsed flag. -/
def statusOk (b : Board) (w i : Nat) (d : Dir) : Prop :=
  match (bget b i).neighbors.get d with
  | .oob => ¬ inBds w b.length i d
  | .unc => inBds w b.length i d ∧ (bget b (targetNat i w d)).collapsed = false
  | .col => inBds w b.length i d ∧ (bget b (targetNat i w d)).collapsed = true

/-- Two boards agreeing on everything `findNeighbors` and
`findPossibleTiles` read from the board argument: the length and every
cell's collapsed flag and connections. -/
def stableEq (b b' : Board) : Prop :=
  b.length = b'.length ∧
  ∀ i, (bget b i).collapsed = (bget b' i).collapsed ∧
    (bget b i).connections = (bget b' i).connections

/-- The solver invariant maintained by every successful collapse step. -/
structure SolverInv (w : Nat) (b : Board) : Prop where
  pos : ∀ i, i < b.length → (bget b i).position = i
  cleared : ∀ i, i < b.length → (bget b i).collapsed = true →
    (bget b i).possibleTiles = []
  conn : ∀ i, i < b.length → (bget b i).collapsed = true →
    ∀ d, (bget b i).connections.get d =
      some (genEdge (bget b i).facing (layouts (bget b i).facing) d)
  status : ∀ i, i < b.length → (bget b i).collapsed = false → ∀ d, statusOk b w i d
  compat : ∀ i, i < b.length → (bget b i).collapsed = false → ∀ d,
    (bget b i).neighbors.get d = .col → ∀ v, v ∈ (bget b i).possibleTiles →
    ∀ c, connAt b w i d = some c →
    count1 c ≤ 1 → count1 (fptEdge (layouts v) d) ≤ 1 → fptEdge (layouts v) d = c
  edges : ∀ i, i < b.length → ∀ d, inBds w b.length i d →
    (bget b i).collapsed = true → (bget b (targetNat i w d)).collapsed = true →
    ∀ cp cq, (bget b i).connections.get d = some cp →
    (bget b (targetNat i w d)).connections.get d.opp = some cq → cp = cq

/-- Board states reachable from a freshly constructed grid by collapse
steps (each step collapsing some cell, with a variant choice that is a
genuine `Math.floor(Math.random()*n)` value, completing without an
exception). -/
inductive Reachable (w h : Nat) : Board → Prop where
  | init : Reachable w h (resetBoard w h)
  | step (b b' : Board) (p : Nat) (pv : Nat → Nat) :
      Reachable w h b →
      (∀ n, 0 < n → pv n < n) →
      collapse b w p pv = (b', .ok true) →
      Reachable w h b'

/-! ## Concrete boards used as witnesses -/

/-- A pick function selecting index `k` (clamped like
`Math.floor(Math.random()*n)` is bounded). -/
def pickAt (k : Nat) : Nat → Nat := fun n => k % n

/-- 1×2 board with cell 0 collapsed to the east variant and the cascade to
cell 1 done (Scenario B). -/
def boardB : Board := (collapse (resetBoard 2 1) 2 0 (pickAt 1)).1

/-- `boardB` with cell 1 also collapsed (to the north variant, the first of
its three remaining candidates). -/
def boardB2 : Board := (collapse boardB 2 1 (pickAt 0)).1

/-- A fully solved 1×1 board. -/
def solvedBoard : Board := (collapse (resetBoard 1 1) 1 0 (pickAt 0)).1

/-- 3×3 board after collapsing cell 0 to blank and cell 2 to west: cell 1's
candidate set is narrowed down to exactly the east variant. -/
def boardC : Board :=
  (collapse (collapse (resetBoard 3 3) 3 0 (pickAt 4)).1 3 2 (pickAt 3)).1

/-- A 1×2 board, built directly, whose two cells have been narrowed to the
single candidates north (cell 0) and east (cell 1): collapsing cell 0
forces a contradiction at cell 1 during the cascade. -/
def boardD : Board :=
  [{ Tile.mk0 0 with
      neighbors := ⟨.oob, .unc, .oob, .oob⟩, possibleTiles := [.north] },
   { Tile.mk0 1 with
      neighbors := ⟨.oob, .oob, .oob, .unc⟩, possibleTiles := [.east] }]

/-- `boardD` after collapsing cell 0: the cascade empties cell 1's
candidate set and throws the contradiction. -/
def boardD2 : Board := (collapse boardD 2 0 (pickAt 0)).1

/-- `boardC` after collapsing the center cell 4 to the south variant: the
cascade's very first neighbor (cell 1, candidate set `[east]`) contradicts
south's north connector "000" and throws, leaving cells 5, 7 and 3
unprocessed. -/
def boardC2 : Board := (collapse boardC 3 4 (pickAt 2)).1

/-! ## Basic board lemmas -/

theorem bget_set_self {b : Board} {i : Nat} (t : Tile) (h : i < b.length) :
    bget (b.set i t) i = t := by
  simp [bget, List.getD_eq_getElem?_getD, List.getElem?_set_self h]

theorem bget_set_ne {b : Board} {i j : Nat} (t : Tile) (h : i ≠ j) :
    bget (b.set i t) j = bget b j := by
  simp [bget, List.getD_eq_getElem?_getD, List.getElem?_set_ne h]

theorem bget_map_mk0 {n i : Nat} (h : i < n) :
    bget ((List.range n).map Tile.mk0) i = Tile.mk0 i := by
  simp [bget, List.getD_eq_getElem?_getD, List.getElem?_map, List.getElem?_range h]

theorem bget_oob {b : Board} {i : Nat} (h : b.length ≤ i) :
    bget b i = Tile.dflt := by
  simp [bget, List.getD_eq_getElem?_getD, List.getElem?_eq_none h]

/-- `DirMap.get` of a pointwise-constructed map. -/
theorem DirMap.get_mk (a₁ a₂ a₃ a₄ : α) (d : Dir) :
    DirMap.get ⟨a₁, a₂, a₃, a₄⟩ d =
      match d with
      | .north => a₁ | .east => a₂ | .south => a₃ | .west => a₄ := by
  cases d <;> rfl

theorem Dir.mem_all (d : Dir) : d ∈ Dir.all := by cases d <;> decide

/-! ## Field preservation lemmas -/

theorem findNeighbors_position (b : Board) (w : Nat) (t : Tile) :
    (findNeighbors b w t).position = t.position := rfl

theorem findNeighbors_collapsed (b : Board) (w : Nat) (t : Tile) :
    (findNeighbors b w t).collapsed = t.collapsed := rfl

theorem findNeighbors_connections (b : Board) (w : Nat) (t : Tile) :
    (findNeighbors b w t).connections = t.connections := rfl

theorem findNeighbors_possibleTiles (b : Board) (w : Nat) (t : Tile) :
    (findNeighbors b w t).possibleTiles = t.possibleTiles := rfl

theorem narrowDir_position (b : Board) (w : Nat) (t : Tile) (d : Dir) :
    (narrowDir b w t d).1.position = t.position := by
  unfold narrowDir; cases connAt b w t.position d <;> rfl

theorem narrowDir_collapsed (b : Board) (w : Nat) (t : Tile) (d : Dir) :
    (narrowDir b w t d).1.collapsed = t.collapsed := by
  unfold narrowDir; cases connAt b w t.position d <;> rfl

theorem narrowDir_connections (b : Board) (w : Nat) (t : Tile) (d : Dir) :
    (narrowDir b w t d).1.connections = t.connections := by
  unfold narrowDir; cases connAt b w t.position d <;> rfl

theorem narrowDir_neighbors (b : Board) (w : Nat) (t : Tile) (d : Dir) :
    (narrowDir b w t d).1.neighbors = t.neighbors := by
  unfold narrowDir; cases connAt b w t.position d <;> rfl

theorem narrowLoop_position (b : Board) (w : Nat) (ds : List Dir) : ∀ t : Tile,
    (narrowLoop b w t ds).1.position = t.position := by
  induction ds with
  | nil => intro t; rfl
  | cons d ds ih =>
      intro t
      unfold narrowLoop
      by_cases hc : t.neighbors.get d = .col
      · simp only [hc, if_pos rfl]
        have h1 := narrowDir_position b w t d
        rcases hnd : narrowDir b w t d with ⟨t', e⟩
        cases e with
        | none => simpa [hnd] using (ih t').trans (by rw [hnd] at h1; exact h1)
        | some e => rw [hnd] at h1; simpa [hnd] using h1
      · simp only [hc, if_neg]; exact ih t

theorem narrowLoop_collapsed (b : Board) (w : Nat) (ds : List Dir) : ∀ t : Tile,
    (narrowLoop b w t ds).1.collapsed = t.collapsed := by
  induction ds with
  | nil => intro t; rfl
  | cons d ds ih =>
      intro t
      unfold narrowLoop
      by_cases hc : t.neighbors.get d = .col
      · simp only [hc, if_pos rfl]
        have h1 := narrowDir_collapsed b w t d
        rcases hnd : narrowDir b w t d with ⟨t', e⟩
        cases e with
        | none => simpa [hnd] using (ih t').trans (by rw [hnd] at h1; exact h1)
        | some e => rw [hnd] at h1; simpa [hnd] using h1
      · simp only [hc, if_neg]; exact ih t

theorem narrowLoop_connections (b : Board) (w : Nat) (ds : List Dir) : ∀ t : Tile,
    (narrowLoop b w t ds).1.connections = t.connections := by
  induction ds with
  | nil => intro t; rfl
  | cons d ds ih =>
      intro t
      unfold narrowLoop
      by_cases hc : t.neighbors.get d = .col
      · simp only [hc, if_pos rfl]
        have h1 := narrowDir_connections b w t d
        rcases hnd : narrowDir b w t d with ⟨t', e⟩
        cases e with
        | none => simpa [hnd] using (ih t').trans (by rw [hnd] at h1; exact h1)
        | some e => rw [hnd] at h1; simpa [hnd] using h1
      · simp only [hc, if_neg]; exact ih t

theorem narrowLoop_neighbors (b : Board) (w : Nat) (ds : List Dir) : ∀ t : Tile,
    (narrowLoop b w t ds).1.neighbors = t.neighbors := by
  induction ds with
  | nil => intro t; rfl
  | cons d ds ih =>
      intro t
      unfold narrowLoop
      by_cases hc : t.neighbors.get d = .col
      · simp only [hc, if_pos rfl]
        have h1 := narrowDir_neighbors b w t d
        rcases hnd : narrowDir b w t d with ⟨t', e⟩
        cases e with
        | none => simpa [hnd] using (ih t').trans (by rw [hnd] at h1; exact h1)
        | some e => rw [hnd] at h1; simpa [hnd] using h1
      · simp only [hc, if_neg]; exact ih t

theorem findPossibleTiles_collapsed (b : Board) (w : Nat) (t : Tile) :
    (findPossibleTiles b w t).1.collapsed = t.collapsed := by
  unfold findPossibleTiles
  have h := narrowLoop_collapsed b w Dir.all t
  rcases hnl : narrowLoop b w t Dir.all with ⟨t', e⟩
  rw [hnl] at h
  cases e <;> simpa using h

theorem findPossibleTiles_position (b : Board) (w : Nat) (t : Tile) :
    (findPossibleTiles b w t).1.position = t.position := by
  unfold findPossibleTiles
  have h := narrowLoop_position b w Dir.all t
  rcases hnl : narrowLoop b w t Dir.all with ⟨t', e⟩
  rw [hnl] at h
  cases e <;> simpa using h

theorem findPossibleTiles_connections (b : Board) (w : Nat) (t : Tile) :
    (findPossibleTiles b w t).1.connections = t.connections := by
  unfold findPossibleTiles
  have h := narrowLoop_connections b w Dir.all t
  rcases hnl : narrowLoop b w t Dir.all with ⟨t', e⟩
  rw [hnl] at h
  cases e <;> simpa using h

theorem findPossibleTiles_neighbors (b : Board) (w : Nat) (t : Tile) :
    (findPossibleTiles b w t).1.neighbors = t.neighbors := by
  unfold findPossibleTiles
  have h := narrowLoop_neighbors b w Dir.all t
  rcases hnl : narrowLoop b w t Dir.all with ⟨t', e⟩
  rw [hnl] at h
  cases e <;> simpa using h

/-! ## Claim C9: the two edge-signature computations agree -/

/-- C9: for every variant of the default catalog (including `blank`, which
`generateConnections` special-cases to the constant string "000") and every
direction, the connection string produced by `generateConnections` equals
the `potentialConnectionStr` that `findPossibleTiles` derives from the same
variant's layout. -/
theorem connections_agree :
    ∀ (v : VName) (d : Dir), genEdge v (layouts v) d = fptEdge (layouts v) d := by
  intro v d; cases v <;> cases d <;> rfl

/-! ## Claim C3: Scenario B on the 1×2 board -/

/-- C3: on a 1×2 board, collapsing cell 0 to the east variant caches the
east-facing signature "010" and the cascade narrows cell 1 to exactly
north, south and west (east and blank are removed), entropy 3. -/
theorem scenarioB_1x2 :
    (bget boardB 0).collapsed = true ∧
    (bget boardB 0).facing = VName.east ∧
    (bget boardB 0).connections.get .east = some ['0', '1', '0'] ∧
    (bget boardB 1).possibleTiles = [VName.north, VName.south, VName.west] ∧
    VName.east ∉ (bget boardB 1).possibleTiles ∧
    VName.blank ∉ (bget boardB 1).possibleTiles ∧
    (bget boardB 1).getEntropy = 3 := by
  decide

/-! ## Claim C5: stepping a fully solved board -/

/-- C5 (code bug): on a board whose every cell is collapsed,
`chooseNextTile` finds no tile with nonzero entropy and returns no tile at
all (JS `undefined`), so the step crashes with a TypeError that the driver
catches and reports as the same failure value `false` used for
contradictions — there is no distinct `AlreadySolved` outcome. -/
theorem step_on_solved_board_fails :
    (∀ i, i < solvedBoard.length → (bget solvedBoard i).collapsed = true) ∧
    chooseNextTile solvedBoard (pickAt 0) = none ∧
    iterateLoop solvedBoard 1 (pickAt 0) (pickAt 0) =
      (solvedBoard, Except.error JsErr.typeError) ∧
    doCollapse solvedBoard 1 (pickAt 0) (pickAt 0) = (solvedBoard, false) :=
  ⟨by decide, rfl, rfl, rfl⟩

/-! ## Claim C8: collapse on an empty candidate set -/

/-- C8: calling `collapse` on a tile whose candidate set is empty returns
the failure value `false` and leaves the whole board — in particular the
tile's chosen variant, layout and cached edge signatures — unchanged, with
no cascade to the neighbors. -/
theorem collapse_empty_candidates (b : Board) (w p : Nat) (pick : Nat → Nat)
    (h : (bget b p).possibleTiles = []) :
    collapse b w p pick = (b, Except.ok false) := by
  unfold collapse
  simp [h]

/-- Witness for C8: the already-collapsed single cell of `solvedBoard` has
an empty (cleared) candidate set, and re-collapsing it fails harmlessly. -/
theorem collapse_empty_candidates_witness :
    (bget solvedBoard 0).collapsed = true ∧
    (bget solvedBoard 0).possibleTiles = [] ∧
    collapse solvedBoard 1 0 (pickAt 0) = (solvedBoard, Except.ok false) :=
  ⟨by decide, by decide, collapse_empty_candidates solvedBoard 1 0 (pickAt 0) (by decide)⟩

/-! ## Index arithmetic -/

theorem ofNat_tmod (a b : Nat) : ((a : Nat) : Int).tmod b = ((a % b : Nat) : Int) := rfl

theorem sub_one_tmod (p w : Nat) :
    ((p : Int) - 1).tmod w =
      if p = 0 then -(((1 % w : Nat) : Int)) else ((p - 1) % w : Nat) := by
  cases p with
  | zero => rfl
  | succ n =>
      have h1 : ((n + 1 : Nat) : Int) - 1 = ((n : Nat) : Int) := by push_cast; ring
      simp only [h1, ofNat_tmod, Nat.succ_ne_zero, if_false, Nat.succ_sub_one]

theorem add_one_tmod (p w : Nat) :
    ((p : Int) + 1).tmod w = (((p + 1) % w : Nat) : Int) := by
  have h1 : ((p : Nat) : Int) + 1 = ((p + 1 : Nat) : Int) := by push_cast; ring
  rw [h1, ofNat_tmod]


theorem fnTarget_north (p w : Nat) : fnTarget p w .north = (p : Int) - w := rfl

theorem fnTarget_south (p w : Nat) : fnTarget p w .south = (p : Int) + w := rfl

theorem fnTarget_east (p w : Nat) :
    fnTarget p w .east =
      if ((p : Int) + 1).tmod w ≠ 0 then (p : Int) + 1 else -1 := rfl

theorem fnTarget_west (p w : Nat) :
    fnTarget p w .west =
      if ((p : Int) - 1).tmod w ≠ (w : Int) - 1 then (p : Int) - 1 else -1 := rfl

theorem inBds_north_iff (w len p : Nat) :
    inBds w len p .north ↔ w ≤ p ∧ p - w < len := by
  unfold inBds; rw [fnTarget_north]; omega

theorem inBds_south_iff (w len p : Nat) :
    inBds w len p .south ↔ p + w < len := by
  unfold inBds; rw [fnTarget_south]; omega

theorem inBds_east_iff (w len p : Nat) :
    inBds w len p .east ↔ (p + 1) % w ≠ 0 ∧ p + 1 < len := by
  unfold inBds
  rw [fnTarget_east, add_one_tmod]
  by_cases hm : (p + 1) % w = 0
  · have hz : ¬ ((((p + 1) % w : Nat) : Int) ≠ 0) := by
      rw [hm]; simp
    rw [if_neg hz]
    constructor
    · intro hb; omega
    · intro hb; exact absurd hm hb.1
  · have hz : (((p + 1) % w : Nat) : Int) ≠ 0 := by exact_mod_cast hm
    rw [if_pos hz]
    constructor
    · intro hb; exact ⟨hm, by omega⟩
    · intro hb; omega


theorem inBds_west_iff (w len p : Nat) (hw : 1 ≤ w) :
    inBds w len p .west ↔ 1 ≤ p ∧ p % w ≠ 0 ∧ p - 1 < len := by
  unfold inBds
  rw [fnTarget_west, sub_one_tmod]
  by_cases hp : p = 0
  · subst hp
    rw [if_pos rfl]
    by_cases hg : (-(((1 % w : Nat)) : Int)) ≠ (w : Int) - 1
    · rw [if_pos hg]
      constructor
      · intro hb; omega
      · intro hb; omega
    · rw [if_neg hg]
      constructor
      · intro hb; omega
      · intro hb; omega
  · rw [if_neg hp]
    have hmod : (p - 1) % w = w - 1 ↔ p % w = 0 := by
      have hp1 : p - 1 + 1 = p := by omega
      constructor
      · intro h
        rw [← hp1, Nat.add_mod, h]
        by_cases hw1 : w = 1
        · subst hw1; simp
        · have e1 : 1 % w = 1 := Nat.mod_eq_of_lt (by omega)
          rw [e1]
          have e2 : w - 1 + 1 = w := by omega
          rw [e2, Nat.mod_self]
      · intro h
        obtain ⟨k, hk⟩ := Nat.dvd_of_mod_eq_zero h
        have hk1 : 1 ≤ k := by
          by_contra hcon
          push_neg at hcon
          have : k = 0 := by omega
          subst this
          simp at hk
          omega
        have hsplit : p - 1 = w * (k - 1) + (w - 1) := by
          cases k with
          | zero => omega
          | succ m =>
              have hm : p = w * m + w := by rw [hk]; ring
              have hm1 : m + 1 - 1 = m := rfl
              rw [hm1]
              omega
        rw [hsplit, Nat.mul_add_mod]
        exact Nat.mod_eq_of_lt (by omega)
    by_cases hg : (p - 1) % w = w - 1
    · have hgi : ¬ ((((p - 1) % w : Nat) : Int) ≠ (w : Int) - 1) := by
        rw [hg]; omega
      rw [if_neg hgi]
      have hm := hmod.1 hg
      constructor
      · intro hb; omega
      · intro hb; exact absurd hm hb.2.1
    · have hgi : (((p - 1) % w : Nat) : Int) ≠ (w : Int) - 1 := by
        intro hcon; apply hg; omega
      rw [if_pos hgi]
      constructor
      · intro hb
        exact ⟨by omega, fun h => hg (hmod.2 h), by omega⟩
      · intro hb; omega

theorem targetNat_north (p w : Nat) : targetNat p w .north = p - w := by
  simp only [targetNat, targetInt]; omega

theorem targetNat_east (p w : Nat) : targetNat p w .east = p + 1 := by
  simp only [targetNat, targetInt]; omega

theorem targetNat_south (p w : Nat) : targetNat p w .south = p + w := by
  simp only [targetNat, targetInt]; omega

theorem targetNat_west (p w : Nat) : targetNat p w .west = p - 1 := by
  simp only [targetNat, targetInt]; omega

theorem fnTarget_eq_targetInt {w len p : Nat} {d : Dir} (h : inBds w len p d) :
    fnTarget p w d = targetInt p w d := by
  cases d
  · rfl
  · rw [show targetInt p w .east = (p : Int) + 1 from rfl, fnTarget_east]
    by_cases hg : ((p : Int) + 1).tmod w ≠ 0
    · rw [if_pos hg]
    · exfalso
      unfold inBds at h
      rw [fnTarget_east, if_neg hg] at h
      omega
  · rfl
  · rw [show targetInt p w .west = (p : Int) - 1 from rfl, fnTarget_west]
    by_cases hg : ((p : Int) - 1).tmod w ≠ (w : Int) - 1
    · rw [if_pos hg]
    · exfalso
      unfold inBds at h
      rw [fnTarget_west, if_neg hg] at h
      omega

theorem inBds_targetInt {w len p : Nat} {d : Dir} (h : inBds w len p d) :
    0 ≤ targetInt p w d ∧ targetInt p w d < (len : Int) := by
  have he := fnTarget_eq_targetInt h
  obtain ⟨h1, h2⟩ := h
  rw [he] at h1 h2
  exact ⟨h1, h2⟩

theorem targetNat_lt {w len p : Nat} {d : Dir} (h : inBds w len p d) :
    targetNat p w d < len := by
  obtain ⟨h1, h2⟩ := inBds_targetInt h
  unfold targetNat
  omega

theorem targetNat_cast {w len p : Nat} {d : Dir} (h : inBds w len p d) :
    ((targetNat p w d : Nat) : Int) = targetInt p w d := by
  obtain ⟨h1, h2⟩ := inBds_targetInt h
  unfold targetNat
  omega

theorem inBds_w_ne_one_east {w len p : Nat} (h : inBds w len p .east) :
    w ≠ 1 := by
  intro h1; subst h1
  have := (inBds_east_iff 1 len p).1 h
  simp [Nat.mod_one] at this

theorem inBds_w_ne_one_west {w len p : Nat} (hw : 1 ≤ w) (h : inBds w len p .west) :
    w ≠ 1 := by
  intro h1; subst h1
  have := (inBds_west_iff 1 len p (by omega)).1 h
  simp [Nat.mod_one] at this

theorem target_ne_self {w len p : Nat} {d : Dir} (hw : 1 ≤ w)
    (h : inBds w len p d) : targetNat p w d ≠ p := by
  cases d
  · have := (inBds_north_iff w len p).1 h
    rw [targetNat_north]; omega
  · rw [targetNat_east]; omega
  · rw [targetNat_south]; omega
  · have := (inBds_west_iff w len p hw).1 h
    rw [targetNat_west]; omega

theorem target_pairwise_ne {w len p : Nat} {d1 d2 : Dir} (hw : 1 ≤ w)
    (hne : d1 ≠ d2) (h1 : inBds w len p d1) (h2 : inBds w len p d2) :
    targetNat p w d1 ≠ targetNat p w d2 := by
  cases d1 <;> cases d2 <;>
    simp only [targetNat_north, targetNat_east, targetNat_south, targetNat_west]
  · exact absurd rfl hne
  · omega
  · omega
  · have ha := (inBds_north_iff w len p).1 h1
    have hb := inBds_w_ne_one_west hw h2
    omega
  · omega
  · exact absurd rfl hne
  · have ha := inBds_w_ne_one_east h1
    omega
  · omega
  · omega
  · have ha := inBds_w_ne_one_east h2
    omega
  · exact absurd rfl hne
  · omega
  · have ha := (inBds_north_iff w len p).1 h2
    have hb := inBds_w_ne_one_west hw h1
    have hc := (inBds_west_iff w len p hw).1 h1
    omega
  · omega
  · have ha := (inBds_west_iff w len p hw).1 h1
    omega
  · exact absurd rfl hne

theorem inBds_symm {w len p : Nat} {d : Dir} (hw : 1 ≤ w) (hp : p < len)
    (h : inBds w len p d) :
    inBds w len (targetNat p w d) d.opp ∧ targetNat (targetNat p w d) w d.opp = p := by
  cases d
  · have hn := (inBds_north_iff w len p).1 h
    rw [targetNat_north]
    refine ⟨(inBds_south_iff w len (p - w)).2 (by omega), ?_⟩
    show targetNat (p - w) w .south = p
    rw [targetNat_south]; omega
  · have he := (inBds_east_iff w len p).1 h
    rw [targetNat_east]
    refine ⟨(inBds_west_iff w len (p + 1) hw).2 ⟨by omega, he.1, by omega⟩, ?_⟩
    show targetNat (p + 1) w .west = p
    rw [targetNat_west]; omega
  · have hs := (inBds_south_iff w len p).1 h
    rw [targetNat_south]
    refine ⟨(inBds_north_iff w len (p + w)).2 (by omega), ?_⟩
    show targetNat (p + w) w .north = p
    rw [targetNat_north]; omega
  · have hwst := (inBds_west_iff w len p hw).1 h
    rw [targetNat_west]
    have hmod : (p - 1 + 1) % w ≠ 0 := by
      have hpp : p - 1 + 1 = p := by omega
      rw [hpp]; exact hwst.2.1
    refine ⟨(inBds_east_iff w len (p - 1)).2 ⟨hmod, by omega⟩, ?_⟩
    show targetNat (p - 1) w .east = p
    rw [targetNat_east]; omega

/-! ## Read-stability: the operations only read length, collapsed flags and
connections from the board argument -/

theorem stableEq_refl (b : Board) : stableEq b b := ⟨rfl, fun _ => ⟨rfl, rfl⟩⟩

theorem stableEq_symm {b b' : Board} (h : stableEq b b') : stableEq b' b :=
  ⟨h.1.symm, fun i => ⟨(h.2 i).1.symm, (h.2 i).2.symm⟩⟩

theorem stableEq_trans {b b' b'' : Board} (h1 : stableEq b b') (h2 : stableEq b' b'') :
    stableEq b b'' :=
  ⟨h1.1.trans h2.1, fun i =>
    ⟨(h1.2 i).1.trans (h2.2 i).1, (h1.2 i).2.trans (h2.2 i).2⟩⟩

/-- Setting a cell to a tile with the same collapsed flag and connections
keeps a board stable-equal to itself. -/
theorem stableEq_set {b : Board} {i : Nat} {t : Tile}
    (hc : t.collapsed = (bget b i).collapsed)
    (hn : t.connections = (bget b i).connections) :
    stableEq (b.set i t) b := by
  refine ⟨List.length_set b i t, fun j => ?_⟩
  by_cases hij : i = j
  · subst hij
    by_cases hlt : i < b.length
    · rw [bget_set_self t hlt]; exact ⟨hc, hn⟩
    · rw [List.set_eq_of_length_le (by omega)]
      exact ⟨rfl, rfl⟩
  · rw [bget_set_ne t hij]
    exact ⟨rfl, rfl⟩

theorem fnStatus_stable {b b' : Board} (h : stableEq b b') (w p : Nat)
    (old : NStatus) (d : Dir) :
    fnStatus b w p old d = fnStatus b' w p old d := by
  unfold fnStatus
  rw [h.1]
  rcases h.2 (fnTarget p w d).toNat with ⟨hc, _⟩
  simp only [Tile.isCollapsed, hc]

theorem findNeighbors_stable {b b' : Board} (h : stableEq b b') (w : Nat) (t : Tile) :
    findNeighbors b w t = findNeighbors b' w t := by
  unfold findNeighbors
  rw [fnStatus_stable h, fnStatus_stable h, fnStatus_stable h, fnStatus_stable h]

theorem connAt_stable {b b' : Board} (h : stableEq b b') (w p : Nat) (d : Dir) :
    connAt b w p d = connAt b' w p d := by
  unfold connAt Tile.getConnector
  rw [(h.2 (targetNat p w d)).2]

theorem narrowDir_stable {b b' : Board} (h : stableEq b b') (w : Nat) (t : Tile)
    (d : Dir) : narrowDir b w t d = narrowDir b' w t d := by
  unfold narrowDir
  rw [connAt_stable h]

theorem narrowLoop_stable {b b' : Board} (h : stableEq b b') (w : Nat)
    (ds : List Dir) : ∀ t : Tile, narrowLoop b w t ds = narrowLoop b' w t ds := by
  induction ds with
  | nil => intro t; rfl
  | cons d ds ih =>
      intro t
      unfold narrowLoop
      rw [narrowDir_stable h, ih]
      rcases narrowDir b' w t d with ⟨t', e⟩
      cases e <;> simp [ih]

theorem findPossibleTiles_stable {b b' : Board} (h : stableEq b b') (w : Nat)
    (t : Tile) : findPossibleTiles b w t = findPossibleTiles b' w t := by
  unfold findPossibleTiles
  rw [narrowLoop_stable h]

/-! ## The initial board -/

theorem foldl_set_length (f : Board → Nat → Tile) (l : List Nat) :
    ∀ b : Board, (l.foldl (fun b i => b.set i (f b i)) b).length = b.length := by
  induction l with
  | nil => intro b; rfl
  | cons j l ih =>
      intro b
      simp only [List.foldl_cons, ih, List.length_set]

theorem resetBoard_length (w h : Nat) : (resetBoard w h).length = h * w := by
  unfold resetBoard
  rw [foldl_set_length]
  simp

/-- The neighbor pass of `resetBoard`: every in-range cell of the result is
the fresh tile run through `findNeighbors` against the all-fresh board. -/
theorem resetFold_spec (w : Nat) (b0ref : Board) (l : List Nat) :
    ∀ b : Board, l.Nodup → stableEq b b0ref →
    (∀ i ∈ l, bget b i = bget b0ref i) →
    (∀ i ∈ l, i < b0ref.length →
        bget (l.foldl (fun b i => b.set i (findNeighbors b w (bget b i))) b) i =
          findNeighbors b0ref w (bget b0ref i)) ∧
    (∀ i, i ∉ l →
        bget (l.foldl (fun b i => b.set i (findNeighbors b w (bget b i))) b) i =
          bget b i) := by
  induction l with
  | nil => intro b _ _ _; exact ⟨fun i hi => absurd hi (List.not_mem_nil i), fun i _ => rfl⟩
  | cons j l ih =>
      intro b hnd hst hagree
      have hj : bget b j = bget b0ref j := hagree j (List.mem_cons_self j l)
      have hfn : findNeighbors b w (bget b j) = findNeighbors b0ref w (bget b0ref j) := by
        rw [hj, findNeighbors_stable hst]
      have hst1 : stableEq (b.set j (findNeighbors b w (bget b j))) b0ref := by
        refine stableEq_trans (stableEq_set ?_ ?_) hst
        · rw [findNeighbors_collapsed]
        · rw [findNeighbors_connections]
      have hagree1 : ∀ i ∈ l, bget (b.set j (findNeighbors b w (bget b j))) i = bget b0ref i := by
        intro i hi
        have hne : j ≠ i := fun hcon => (List.nodup_cons.1 hnd).1 (hcon ▸ hi)
        rw [bget_set_ne _ hne]
        exact hagree i (List.mem_cons_of_mem j hi)
      obtain ⟨ihin, ihout⟩ := ih (b.set j (findNeighbors b w (bget b j)))
        (List.nodup_cons.1 hnd).2 hst1 hagree1
      constructor
      · intro i hi hlt
        simp only [List.foldl_cons]
        rcases List.mem_cons.1 hi with hij | hil
        · subst hij
          have hjl : i ∉ l := (List.nodup_cons.1 hnd).1
          rw [ihout i hjl]
          have hlen : i < b.length := by rw [hst.1]; exact hlt
          rw [bget_set_self _ hlen, hfn]
        · exact ihin i hil hlt
      · intro i hi
        simp only [List.foldl_cons]
        have hil : i ∉ l := fun hcon => hi (List.mem_cons_of_mem j hcon)
        have hij : j ≠ i := fun hcon => hi (hcon ▸ List.mem_cons_self j l)
        rw [ihout i hil, bget_set_ne _ hij]

/-- Characterization of `resetBoard`: every cell is the fresh tile with its
neighbor statuses filled in from the fresh board. -/
theorem resetBoard_spec (w h : Nat) (i : Nat) (hi : i < h * w) :
    bget (resetBoard w h) i =
      findNeighbors ((List.range (h * w)).map Tile.mk0) w (Tile.mk0 i) := by
  unfold resetBoard
  have hlen : ((List.range (h * w)).map Tile.mk0).length = h * w := by simp
  have := (resetFold_spec w ((List.range (h * w)).map Tile.mk0) (List.range (h * w))
    ((List.range (h * w)).map Tile.mk0) (List.nodup_range (h * w))
    (stableEq_refl _) (fun _ _ => rfl)).1 i (List.mem_range.2 hi) (by rw [hlen]; exact hi)
  rw [this, bget_map_mk0 hi]

/-- Status of every direction of every cell of the fresh board: `unc` for
real adjacencies, `oob` otherwise. -/
theorem resetBoard_status (w h : Nat) (i : Nat) (hi : i < h * w) (d : Dir) :
    (bget (resetBoard w h) i).neighbors.get d =
      if inBds w (h * w) i d then NStatus.unc else NStatus.oob := by
  rw [resetBoard_spec w h i hi]
  have hlen : ((List.range (h * w)).map Tile.mk0).length = h * w := by simp
  have hpos : (Tile.mk0 i).position = i := rfl
  have hold : ∀ d', (Tile.mk0 i).neighbors.get d' = NStatus.unc := by
    intro d'; cases d' <;> rfl
  have huncol : ∀ j, (bget ((List.range (h * w)).map Tile.mk0) j).isCollapsed = false := by
    intro j
    by_cases hj : j < h * w
    · rw [bget_map_mk0 hj]; rfl
    · rw [bget_oob (by rw [hlen]; omega)]; rfl
  have hget : (findNeighbors ((List.range (h * w)).map Tile.mk0) w (Tile.mk0 i)).neighbors.get d =
      fnStatus ((List.range (h * w)).map Tile.mk0) w i (NStatus.unc) d := by
    cases d <;> simp [findNeighbors, DirMap.get, hpos, Tile.mk0, DirMap.const]
  rw [hget]
  unfold fnStatus
  rw [if_neg (by intro hcon; cases hcon)]
  simp only [huncol, hlen]
  by_cases hb : inBds w (h * w) i d
  · rw [if_pos ⟨hb.1, by exact_mod_cast hb.2⟩, if_pos hb]
    simp
  · rw [if_neg (by intro hcon; exact hb ⟨hcon.1, by exact_mod_cast hcon.2⟩), if_neg hb]

/-! ## Claim C6: topology guard -/

/-- C6: after the neighbor-status pass on a fresh `w`-wide board, a cell in
the last column (`(p+1) % w == 0`) has its east status OutOfBounds and a
cell in the first column (`p % w == 0`, including position 0) has its west
status OutOfBounds, whatever its other directions are: the arithmetic
wraparound indices `p+1` and `p-1` across a row boundary are never treated
as adjacencies. -/
theorem topology_guard (w h p : Nat) (hp : p < h * w) :
    ((p + 1) % w = 0 → (bget (resetBoard w h) p).neighbors.get .east = .oob) ∧
    (p % w = 0 → (bget (resetBoard w h) p).neighbors.get .west = .oob) := by
  have hw : 1 ≤ w := by
    rcases Nat.eq_zero_or_pos w with h0 | h1
    · subst h0; simp at hp
    · exact h1
  constructor
  · intro hmod
    rw [resetBoard_status w h p hp .east, if_neg]
    intro hcon
    exact ((inBds_east_iff w (h * w) p).1 hcon).1 hmod
  · intro hmod
    rw [resetBoard_status w h p hp .west, if_neg]
    intro hcon
    exact ((inBds_west_iff w (h * w) p hw).1 hcon).2.1 hmod

/-- Witness for C6 on a 3×2 board: position 2 (last column) has no east
neighbor; positions 3 and 0 (first column) have no west neighbor. -/
theorem topology_guard_witness :
    (bget (resetBoard 3 2) 2).neighbors.get .east = .oob ∧
    (bget (resetBoard 3 2) 3).neighbors.get .west = .oob ∧
    (bget (resetBoard 3 2) 0).neighbors.get .west = .oob :=
  ⟨(topology_guard 3 2 2 (by decide)).1 (by decide),
   (topology_guard 3 2 3 (by decide)).2 (by decide),
   (topology_guard 3 2 0 (by decide)).2 (by decide)⟩

/-! ## The narrowing loop as a filter -/

theorem narrowDir_eq {b : Board} {w : Nat} {t : Tile} {d : Dir} {c : List Char}
    (hc : connAt b w t.position d = some c) :
    narrowDir b w t d =
      ({ t with possibleTiles :=
          t.possibleTiles.filter fun v => !elimB c (fptEdge (layouts v) d) }, none) := by
  unfold narrowDir
  rw [hc]

theorem narrowLoop_spec (b : Board) (w : Nat) (ds : List Dir) : ∀ t : Tile,
    (∀ d ∈ ds, t.neighbors.get d = .col → connAt b w t.position d ≠ none) →
    (narrowLoop b w t ds).2 = none ∧
    ∀ v : VName, v ∈ (narrowLoop b w t ds).1.possibleTiles ↔
      (v ∈ t.possibleTiles ∧ ∀ d ∈ ds, t.neighbors.get d = .col →
        ∀ c, connAt b w t.position d = some c →
          elimB c (fptEdge (layouts v) d) = false) := by
  induction ds with
  | nil =>
      intro t _
      refine ⟨rfl, fun v => ?_⟩
      simp [narrowLoop]
  | cons d ds ih =>
      intro t hconn
      unfold narrowLoop
      by_cases hcol : t.neighbors.get d = .col
      · rcases hsome : connAt b w t.position d with _ | c
        · exact absurd hsome (hconn d (List.mem_cons_self d ds) hcol)
        · rw [if_pos hcol, narrowDir_eq hsome]
          set t' : Tile :=
            { t with possibleTiles :=
                t.possibleTiles.filter fun v => !elimB c (fptEdge (layouts v) d) } with ht'
          have hconn' : ∀ d' ∈ ds, t'.neighbors.get d' = .col →
              connAt b w t'.position d' ≠ none := by
            intro d' hd' hcol'
            exact hconn d' (List.mem_cons_of_mem d hd') hcol'
          obtain ⟨herr, hmem⟩ := ih t' hconn'
          refine ⟨herr, fun v => ?_⟩
          rw [hmem v]
          have hm : v ∈ t'.possibleTiles ↔
              v ∈ t.possibleTiles ∧ elimB c (fptEdge (layouts v) d) = false := by
            rw [ht']
            simp only [List.mem_filter, Bool.not_eq_eq_eq_not, Bool.not_true]
          rw [List.forall_mem_cons]
          constructor
          · rintro ⟨hvt', hrest⟩
            obtain ⟨hvt, helim⟩ := hm.1 hvt'
            refine ⟨hvt, ⟨?_, ?_⟩⟩
            · intro _ c' hc'
              rw [hsome] at hc'
              cases hc'
              exact helim
            · intro d' hd' hcol' c' hc'
              exact hrest d' hd' hcol' c' hc'
          · rintro ⟨hvt, hd, hrest⟩
            refine ⟨hm.2 ⟨hvt, hd hcol c hsome⟩, ?_⟩
            intro d' hd' hcol' c' hc'
            exact hrest d' hd' hcol' c' hc'
      · rw [if_neg hcol]
        obtain ⟨herr, hmem⟩ := ih t fun d' hd' hcol' =>
          hconn d' (List.mem_cons_of_mem d hd') hcol'
        refine ⟨herr, fun v => ?_⟩
        rw [hmem v, List.forall_mem_cons]
        constructor
        · rintro ⟨hvt, hrest⟩
          exact ⟨hvt, fun hcol' => absurd hcol' hcol, hrest⟩
        · rintro ⟨hvt, _, hrest⟩
          exact ⟨hvt, hrest⟩

theorem findPossibleTiles_eq (b : Board) (w : Nat) (t : Tile)
    (hconn : ∀ d, t.neighbors.get d = .col → connAt b w t.position d ≠ none) :
    findPossibleTiles b w t =
      ((narrowLoop b w t Dir.all).1,
        if (narrowLoop b w t Dir.all).1.collapsed = false ∧
            (narrowLoop b w t Dir.all).1.possibleTiles = [] then
          some NarrowErr.contradiction
        else none) := by
  unfold findPossibleTiles
  obtain ⟨herr, _⟩ := narrowLoop_spec b w Dir.all t
    (fun d _ hcol => hconn d hcol)
  rcases hnl : narrowLoop b w t Dir.all with ⟨t', e⟩
  rw [hnl] at herr
  cases e with
  | none => rfl
  | some e => cases herr

/-! ## Claim C2: the elimination rule -/

/-- C2: for an uncollapsed tile, narrowing removes a candidate variant if
and only if some direction with a collapsed neighbor supplies a connector
with at most one active cell while the variant's own facing edge also has
at most one active cell and differs from it; in particular a connector with
more than one active cell eliminates nothing. -/
theorem narrowing_elimination_iff (b : Board) (w : Nat) (t : Tile)
    (hunc : t.collapsed = false)
    (hconn : ∀ d, t.neighbors.get d = .col → connAt b w t.position d ≠ none) :
    ∀ v : VName,
      (v ∈ t.possibleTiles ∧ v ∉ (findPossibleTiles b w t).1.possibleTiles) ↔
      (v ∈ t.possibleTiles ∧ ∃ d : Dir, t.neighbors.get d = .col ∧
        ∃ c, connAt b w t.position d = some c ∧
          count1 c ≤ 1 ∧ count1 (fptEdge (layouts v) d) ≤ 1 ∧
          fptEdge (layouts v) d ≠ c) := by
  intro v
  obtain ⟨herr, hmem⟩ := narrowLoop_spec b w Dir.all t (fun d _ hcol => hconn d hcol)
  have h1 : (findPossibleTiles b w t).1.possibleTiles =
      (narrowLoop b w t Dir.all).1.possibleTiles := by
    rw [findPossibleTiles_eq b w t hconn]
  rw [h1, hmem v]
  constructor
  · rintro ⟨hvt, hnot⟩
    refine ⟨hvt, ?_⟩
    by_contra hcon
    push_neg at hcon
    refine hnot ⟨hvt, ?_⟩
    intro d _ hcol c hc
    rcases helim : elimB c (fptEdge (layouts v) d) with _ | _
    · rfl
    · exfalso
      unfold elimB at helim
      rw [Bool.and_eq_true, Bool.and_eq_true] at helim
      obtain ⟨⟨hc1, hc2⟩, hc3⟩ := helim
      exact (of_decide_eq_true hc3)
        (hcon d hcol c hc (of_decide_eq_true hc1) (of_decide_eq_true hc2))
  · rintro ⟨hvt, d, hcol, c, hc, hc1, hc2, hc3⟩
    refine ⟨hvt, ?_⟩
    rintro ⟨-, hall⟩
    have := hall d (Dir.mem_all d) hcol c hc
    unfold elimB at this
    rw [decide_eq_true hc1, decide_eq_true hc2, decide_eq_true hc3] at this
    simp at this

/-- Witness for C2 on Scenario B's board: cell 1 of `boardB` faces the
collapsed east tile through its west direction, and its narrowing removes
exactly the east and blank variants. -/
theorem narrowing_elimination_iff_witness :
    ((bget boardB 1).collapsed = false) ∧
    ((VName.east ∈ (bget boardB 1).possibleTiles ∧
      VName.east ∉ (findPossibleTiles boardB 2 (bget boardB 1)).1.possibleTiles) ↔
      (VName.east ∈ (bget boardB 1).possibleTiles ∧ ∃ d : Dir,
        (bget boardB 1).neighbors.get d = .col ∧
        ∃ c, connAt boardB 2 (bget boardB 1).position d = some c ∧
          count1 c ≤ 1 ∧ count1 (fptEdge (layouts VName.east) d) ≤ 1 ∧
          fptEdge (layouts VName.east) d ≠ c)) :=
  ⟨by decide,
   narrowing_elimination_iff boardB 2 (bget boardB 1) (by decide)
     (by intro d; cases d <;> decide) VName.east⟩

/-! ## Claim C4: the contradiction outcome -/

/-- C4: `findPossibleTiles` raises the Contradiction error exactly when,
after all four directions are processed, the tile is uncollapsed with an
empty candidate set; and when a collapse propagates that error, the
driver's step observes it and reports failure (`doCollapse` returns
`false`) instead of swallowing it. -/
theorem contradiction_iff_empty (b : Board) (w : Nat) (t : Tile)
    (hconn : ∀ d, t.neighbors.get d = .col → connAt b w t.position d ≠ none) :
    ((findPossibleTiles b w t).2 = some NarrowErr.contradiction ↔
      (findPossibleTiles b w t).1.collapsed = false ∧
      (findPossibleTiles b w t).1.possibleTiles = []) ∧
    (∀ (b₂ b₂' : Board) (pt pv : Nat → Nat) (p : Nat),
      chooseNextTile b₂ pt = some p →
      collapse b₂ w p pv = (b₂', Except.error NarrowErr.contradiction) →
      doCollapse b₂ w pt pv = (b₂', false)) := by
  constructor
  · rw [findPossibleTiles_eq b w t hconn]
    by_cases hcond : (narrowLoop b w t Dir.all).1.collapsed = false ∧
        (narrowLoop b w t Dir.all).1.possibleTiles = []
    · rw [if_pos hcond]
      exact ⟨fun _ => hcond, fun _ => rfl⟩
    · rw [if_neg hcond]
      exact ⟨fun hcon => Option.noConfusion hcon, fun hcon => absurd hcon hcond⟩
  · intro b₂ b₂' pt pv p hchoose hcoll
    simp only [doCollapse, iterateLoop, hchoose, hcoll]

/-- Witness for C4: re-narrowing the emptied, uncollapsed cell 1 of
`boardD2` raises the contradiction, and the driver step on `boardD`
(whose collapse of cell 0 cascades into that contradiction) reports
failure. -/
theorem contradiction_iff_empty_witness :
    (findPossibleTiles boardD2 2 (bget boardD2 1)).2 = some NarrowErr.contradiction ∧
    doCollapse boardD 2 (pickAt 0) (pickAt 0) = (boardD2, false) :=
  ⟨(contradiction_iff_empty boardD2 2 (bget boardD2 1)
      (by intro d; cases d <;> decide)).1.2 ⟨by decide, by decide⟩,
   (contradiction_iff_empty boardD2 2 (bget boardD2 1)
      (by intro d; cases d <;> decide)).2
      boardD boardD2 (pickAt 0) (pickAt 0) 0 rfl rfl⟩

/-! ## Claim C7: minimum-entropy selection -/

theorem foldl_min_le_start (xs : List Nat) : ∀ x : Nat, xs.foldl Nat.min x ≤ x := by
  induction xs with
  | nil => intro x; exact Nat.le_refl x
  | cons a as ih =>
      intro x
      calc (a :: as).foldl Nat.min x = as.foldl Nat.min (Nat.min x a) := rfl
        _ ≤ Nat.min x a := ih _
        _ ≤ x := Nat.min_le_left x a

theorem foldl_min_le_mem (xs : List Nat) : ∀ x : Nat, ∀ y ∈ xs, xs.foldl Nat.min x ≤ y := by
  induction xs with
  | nil => intro x y hy; exact absurd hy (List.not_mem_nil y)
  | cons a as ih =>
      intro x y hy
      rcases List.mem_cons.1 hy with h | h
      · rw [h]
        calc (a :: as).foldl Nat.min x = as.foldl Nat.min (Nat.min x a) := rfl
          _ ≤ Nat.min x a := foldl_min_le_start as _
          _ ≤ a := Nat.min_le_right x a
      · exact ih (Nat.min x a) y h

theorem foldl_min_mem (xs : List Nat) : ∀ x : Nat, xs.foldl Nat.min x ∈ x :: xs := by
  induction xs with
  | nil => intro x; exact List.mem_singleton.2 rfl
  | cons a as ih =>
      intro x
      have h := ih (Nat.min x a)
      have hred : List.foldl Nat.min x (a :: as) = List.foldl Nat.min (Nat.min x a) as := rfl
      rw [hred]
      rcases List.mem_cons.1 h with h1 | h1
      · rw [h1]
        have hxa : Nat.min x a = x ∨ Nat.min x a = a := by
          by_cases hc : x ≤ a
          · exact Or.inl (Nat.min_eq_left hc)
          · exact Or.inr (Nat.min_eq_right (by omega))
        rcases hxa with h2 | h2 <;> rw [h2]
        · exact List.mem_cons_self x _
        · exact List.mem_cons_of_mem x (List.mem_cons_self a as)
      · exact List.mem_cons_of_mem x (List.mem_cons_of_mem a h1)

theorem jsMin_spec {l : List Nat} {m : Nat} (h : jsMin l = some m) :
    m ∈ l ∧ ∀ x ∈ l, m ≤ x := by
  cases l with
  | nil => cases h
  | cons x xs =>
      have hm : m = xs.foldl Nat.min x := by
        have : jsMin (x :: xs) = some (xs.foldl Nat.min x) := rfl
        rw [this] at h
        exact (Option.some_inj.1 h).symm
      subst hm
      refine ⟨foldl_min_mem xs x, fun y hy => ?_⟩
      rcases List.mem_cons.1 hy with h1 | h1
      · subst h1; exact foldl_min_le_start xs _
      · exact foldl_min_le_mem xs x y h1

theorem getD_map_entropy (b : Board) {i : Nat} (hi : i < b.length) :
    (b.map fun t => if t.isCollapsed then 0 else t.getEntropy).getD i 0 =
      (if (bget b i).isCollapsed then 0 else (bget b i).getEntropy) := by
  rw [List.getD_eq_getElem?_getD, List.getElem?_map, List.getElem?_eq_getElem hi]
  have hb : bget b i = b[i] := by rw [bget, List.getD_eq_getElem _ _ hi]
  rw [hb]
  rfl

theorem mem_map_entropy (b : Board) {i : Nat} (hi : i < b.length) :
    (if (bget b i).isCollapsed then 0 else (bget b i).getEntropy) ∈
      (b.map fun t => if t.isCollapsed then 0 else t.getEntropy) := by
  rw [← getD_map_entropy b hi]
  have hlen : i < (b.map fun t => if t.isCollapsed then 0 else t.getEntropy).length := by
    rw [List.length_map]; exact hi
  rw [List.getD_eq_getElem _ _ hlen]
  exact List.getElem_mem hlen

/-- C7: when at least one tile is uncollapsed and every uncollapsed tile
still has candidates, `chooseNextTile` returns an uncollapsed tile of
minimum entropy among the uncollapsed tiles (collapsed tiles, whose
candidate sets are cleared, are ignored via their resolution flag), and
every tile tied at that minimum can be the one returned for a suitable
random draw. -/
theorem chooseNextTile_min_entropy (b : Board) (pick : Nat → Nat)
    (hpick : ∀ n, 0 < n → pick n < n)
    (hex : ∃ i, i < b.length ∧ (bget b i).collapsed = false)
    (hne : ∀ i, i < b.length → (bget b i).collapsed = false →
      (bget b i).possibleTiles ≠ []) :
    ∃ j, chooseNextTile b pick = some j ∧ j < b.length ∧
      (bget b j).collapsed = false ∧
      (∀ i, i < b.length → (bget b i).collapsed = false →
        (bget b j).getEntropy ≤ (bget b i).getEntropy) ∧
      (∀ k, k < b.length → (bget b k).collapsed = false →
        (bget b k).getEntropy = (bget b j).getEntropy →
        ∃ pick2 : Nat → Nat, chooseNextTile b pick2 = some k) := by
  classical
  set ea := b.map fun t => if t.isCollapsed then 0 else t.getEntropy with hea
  have healen : ea.length = b.length := List.length_map b _
  have hval : ∀ i, i < b.length → (bget b i).collapsed = false →
      ea.getD i 0 = (bget b i).getEntropy := by
    intro i hi hc
    rw [hea, getD_map_entropy b hi]
    simp [Tile.isCollapsed, hc]
  have hvalc : ∀ i, i < b.length → (bget b i).collapsed = true →
      ea.getD i 0 = 0 := by
    intro i hi hc
    rw [hea, getD_map_entropy b hi]
    simp [Tile.isCollapsed, hc]
  have hmemnz : ∀ i, i < b.length → (bget b i).collapsed = false →
      (bget b i).getEntropy ∈ ea.filter fun v => v ≠ 0 := by
    intro i hi hc
    rw [List.mem_filter]
    constructor
    · rw [← hval i hi hc, hea, getD_map_entropy b hi]
      have := mem_map_entropy b hi
      rwa [Tile.isCollapsed, hc, if_neg (by simp)] at this ⊢
    · have := hne i hi hc
      simp only [Tile.getEntropy, ne_eq, decide_eq_true_eq]
      intro hcon
      exact this (List.eq_nil_of_length_eq_zero hcon)
  obtain ⟨i0, hi0, hc0⟩ := hex
  have hnz : (ea.filter fun v => v ≠ 0) ≠ [] := by
    intro hcon
    have := hmemnz i0 hi0 hc0
    rw [hcon] at this
    exact List.not_mem_nil _ this
  rcases hjs : jsMin (ea.filter fun v => v ≠ 0) with _ | m
  · exfalso
    rcases hfil : (ea.filter fun v => v ≠ 0) with _ | ⟨x, xs⟩
    · exact hnz hfil
    · rw [hfil] at hjs; cases hjs
  obtain ⟨hmmem, hmle⟩ := jsMin_spec hjs
  have hm0 : m ≠ 0 := by
    have := (List.mem_filter.1 hmmem).2
    simpa using this
  have hmea : m ∈ ea := (List.mem_filter.1 hmmem).1
  set etiles := (List.range ea.length).filter fun i => ea.getD i 0 = m with het
  have hmem_et : ∀ i, i ∈ etiles ↔ i < b.length ∧ ea.getD i 0 = m := by
    intro i
    rw [het, List.mem_filter, List.mem_range, healen]
    simp
  have het_ne : etiles ≠ [] := by
    obtain ⟨i1, hi1, hval1⟩ := List.getElem_of_mem hmea
    intro hcon
    have : i1 ∈ etiles := (hmem_et i1).2 ⟨by rw [← healen]; exact hi1,
      by rw [List.getD_eq_getElem _ _ hi1, hval1]⟩
    rw [hcon] at this
    exact List.not_mem_nil _ this
  have hjprop : ∀ j, j ∈ etiles → j < b.length ∧ (bget b j).collapsed = false ∧
      (bget b j).getEntropy = m := by
    intro j hj
    obtain ⟨hjl, hjv⟩ := (hmem_et j).1 hj
    rcases hcj : (bget b j).collapsed with _ | _
    · exact ⟨hjl, rfl, by rw [← hval j hjl hcj, hjv]⟩
    · exfalso
      rw [hvalc j hjl hcj] at hjv
      exact hm0 hjv.symm
  have hchoose : ∀ pk : Nat → Nat,
      chooseNextTile b pk = some (if etiles.length = 1 then etiles.getD 0 0
        else etiles.getD (pk etiles.length) 0) := by
    intro pk
    simp only [chooseNextTile]
    rw [← hea, hjs]
    dsimp only
    rw [← het]
    by_cases h1 : etiles.length = 1
    · rw [if_pos h1, if_pos h1]
    · rw [if_neg h1, if_neg h1]
  have hsel : ∀ (n : Nat), n < etiles.length → etiles.getD n 0 ∈ etiles := by
    intro n hn
    rw [List.getD_eq_getElem _ _ hn]
    exact List.getElem_mem hn
  have hlen_pos : 0 < etiles.length := List.length_pos.2 het_ne
  set j := if etiles.length = 1 then etiles.getD 0 0
    else etiles.getD (pick etiles.length) 0 with hj
  have hjmem : j ∈ etiles := by
    rw [hj]
    by_cases h1 : etiles.length = 1
    · rw [if_pos h1]; exact hsel 0 (by omega)
    · rw [if_neg h1]; exact hsel _ (hpick _ hlen_pos)
  obtain ⟨hjl, hjc, hjent⟩ := hjprop j hjmem
  refine ⟨j, hchoose pick, hjl, hjc, ?_, ?_⟩
  · intro i hi hc
    rw [hjent]
    exact hmle _ (hmemnz i hi hc)
  · intro k hk hkc hkent
    have hkmem : k ∈ etiles := (hmem_et k).2 ⟨hk, by rw [hval k hk hkc, hkent, hjent]⟩
    by_cases h1 : etiles.length = 1
    · obtain ⟨a, ha⟩ := List.length_eq_one.1 h1
      have hka : k = a := by
        rw [ha] at hkmem
        exact List.mem_singleton.1 hkmem
      have hja : j = a := by
        rw [hj, if_pos h1, ha]
        rfl
      refine ⟨pick, ?_⟩
      rw [hchoose pick, ← hj, hja, hka]
    · refine ⟨fun _ => etiles.indexOf k, ?_⟩
      have hidx : etiles.indexOf k < etiles.length := List.indexOf_lt_length.2 hkmem
      rw [hchoose (fun _ => etiles.indexOf k), if_neg h1]
      congr 1
      rw [List.getD_eq_getElem _ _ hidx]
      exact List.getElem_indexOf hidx

/-- Witness for C7 on Scenario B's board: cell 1 is the unique uncollapsed
tile, and the selection returns it. -/
theorem chooseNextTile_min_entropy_witness :
    ∃ j, chooseNextTile boardB (pickAt 0) = some j ∧ j < boardB.length ∧
      (bget boardB j).collapsed = false ∧
      (∀ i, i < boardB.length → (bget boardB i).collapsed = false →
        (bget boardB j).getEntropy ≤ (bget boardB i).getEntropy) ∧
      (∀ k, k < boardB.length → (bget boardB k).collapsed = false →
        (bget boardB k).getEntropy = (bget boardB j).getEntropy →
        ∃ pick2 : Nat → Nat, chooseNextTile boardB pick2 = some k) :=
  chooseNextTile_min_entropy boardB (pickAt 0) (fun _ hn => Nat.mod_lt 0 hn)
    ⟨1, by decide, by decide⟩ (by decide)

/-! ## The cascade as independent per-tile updates -/

theorem cascadeLoop_cons_unc {w p : Nat} {nb : DirMap NStatus} {b : Board}
    {d : Dir} {ds : List Dir} (hnd : nb.get d = .unc) :
    cascadeLoop w p nb b (d :: ds) =
      (match findPossibleTiles
          (b.set (targetNat p w d) (findNeighbors b w (bget b (targetNat p w d)))) w
          (bget (b.set (targetNat p w d) (findNeighbors b w (bget b (targetNat p w d))))
            (targetNat p w d)) with
       | (t', some e) =>
          ((b.set (targetNat p w d)
              (findNeighbors b w (bget b (targetNat p w d)))).set (targetNat p w d) t',
            some e)
       | (t', none) =>
          cascadeLoop w p nb
            ((b.set (targetNat p w d)
                (findNeighbors b w (bget b (targetNat p w d)))).set (targetNat p w d) t') ds) := by
  conv_lhs => rw [cascadeLoop]
  rw [if_pos hnd]

theorem cascadeLoop_cons_skip {w p : Nat} {nb : DirMap NStatus} {b : Board}
    {d : Dir} {ds : List Dir} (hnd : ¬ nb.get d = .unc) :
    cascadeLoop w p nb b (d :: ds) = cascadeLoop w p nb b ds := by
  conv_lhs => rw [cascadeLoop]
  rw [if_neg hnd]

theorem cascade_step (w : Nat) (bref b : Board) (tgt : Nat) (hst : stableEq b bref)
    (hag : bget b tgt = bget bref tgt) (hlt : tgt < bref.length) :
    bget (b.set tgt (findNeighbors b w (bget b tgt))) tgt =
      findNeighbors bref w (bget bref tgt) ∧
    stableEq (b.set tgt (findNeighbors b w (bget b tgt))) bref ∧
    findPossibleTiles (b.set tgt (findNeighbors b w (bget b tgt))) w
        (bget (b.set tgt (findNeighbors b w (bget b tgt))) tgt) =
      cascadeUpd bref w tgt := by
  have hltb : tgt < b.length := by rw [hst.1]; exact hlt
  have h1 : bget (b.set tgt (findNeighbors b w (bget b tgt))) tgt =
      findNeighbors bref w (bget bref tgt) := by
    rw [bget_set_self _ hltb, hag, findNeighbors_stable hst]
  have h2 : stableEq (b.set tgt (findNeighbors b w (bget b tgt))) bref := by
    refine stableEq_trans (stableEq_set ?_ ?_) hst
    · rw [findNeighbors_collapsed]
    · rw [findNeighbors_connections]
  refine ⟨h1, h2, ?_⟩
  rw [h1, findPossibleTiles_stable h2]
  rfl

/-- When the whole cascade completes without an exception, every uncollapsed
direction's target carries its per-tile update, every other cell is
untouched, and each per-tile update is itself exception-free. -/
theorem cascadeLoop_ok (w p : Nat) (nb : DirMap NStatus) (bref : Board) :
    ∀ (ds : List Dir) (b bo : Board), ds.Nodup →
    stableEq b bref →
    (∀ d ∈ ds, nb.get d = .unc →
      bget b (targetNat p w d) = bget bref (targetNat p w d)) →
    (∀ d ∈ ds, nb.get d = .unc → targetNat p w d < bref.length) →
    (∀ d1 ∈ ds, ∀ d2 ∈ ds, nb.get d1 = .unc → nb.get d2 = .unc → d1 ≠ d2 →
      targetNat p w d1 ≠ targetNat p w d2) →
    cascadeLoop w p nb b ds = (bo, none) →
    (∀ d ∈ ds, nb.get d = .unc →
      (cascadeUpd bref w (targetNat p w d)).2 = none ∧
      bget bo (targetNat p w d) = (cascadeUpd bref w (targetNat p w d)).1) ∧
    (∀ q : Nat, (∀ d ∈ ds, nb.get d = .unc → targetNat p w d ≠ q) →
      bget bo q = bget b q) ∧
    stableEq bo bref ∧ bo.length = b.length := by
  intro ds
  induction ds with
  | nil =>
      intro b bo _ hst _ _ _ hres
      cases hres
      exact ⟨fun d hd => absurd hd (List.not_mem_nil d), fun q _ => rfl, hst, rfl⟩
  | cons d ds ih =>
      intro b bo hnodup hst hag hlt hdis hres
      have hnodup' := (List.nodup_cons.1 hnodup).2
      have hdmem := (List.nodup_cons.1 hnodup).1
      by_cases hnd : nb.get d = .unc
      · have hagd := hag d (List.mem_cons_self d ds) hnd
        have hltd := hlt d (List.mem_cons_self d ds) hnd
        obtain ⟨hstep1, hstep2, hstep3⟩ :=
          cascade_step w bref b (targetNat p w d) hst hagd hltd
        rw [cascadeLoop_cons_unc hnd] at hres
        set b1 := b.set (targetNat p w d)
          (findNeighbors b w (bget b (targetNat p w d))) with hb1
        rcases hfpt : findPossibleTiles b1 w (bget b1 (targetNat p w d)) with ⟨t', e⟩
        rw [hfpt] at hres
        cases e with
        | some e0 => exact Option.noConfusion (congrArg Prod.snd hres)
        | none =>
            have hres' : cascadeLoop w p nb (b1.set (targetNat p w d) t') ds =
                (bo, none) := hres
            have hupd : cascadeUpd bref w (targetNat p w d) = (t', none) := by
              rw [← hstep3, hfpt]
            have hltb : targetNat p w d < b.length := by
              rw [hst.1]; exact hltd
            have hlt1 : targetNat p w d < b1.length := by
              rw [hb1, List.length_set]; exact hltb
            set b2 := b1.set (targetNat p w d) t' with hb2
            have hlen2 : b2.length = b.length := by
              rw [hb2, hb1, List.length_set, List.length_set]
            have hgt2 : bget b2 (targetNat p w d) = t' := bget_set_self t' hlt1
            have hst2 : stableEq b2 bref := by
              have hcol := findPossibleTiles_collapsed b1 w (bget b1 (targetNat p w d))
              have hcon := findPossibleTiles_connections b1 w (bget b1 (targetNat p w d))
              rw [hfpt] at hcol hcon
              exact stableEq_trans (stableEq_set hcol hcon) hstep2
            have hag2 : ∀ d' ∈ ds, nb.get d' = .unc →
                bget b2 (targetNat p w d') = bget bref (targetNat p w d') := by
              intro d' hd' hnd'
              have hne : targetNat p w d ≠ targetNat p w d' :=
                hdis d (List.mem_cons_self d ds) d' (List.mem_cons_of_mem d hd') hnd hnd'
                  (fun hcon => hdmem (hcon ▸ hd'))
              rw [hb2, bget_set_ne _ hne, hb1, bget_set_ne _ hne]
              exact hag d' (List.mem_cons_of_mem d hd') hnd'
            obtain ⟨ih1, ih2, ih3, ih4⟩ := ih b2 bo hnodup' hst2 hag2
              (fun d' hd' hnd' => hlt d' (List.mem_cons_of_mem d hd') hnd')
              (fun d1 h1 d2 h2 => hdis d1 (List.mem_cons_of_mem d h1)
                d2 (List.mem_cons_of_mem d h2))
              hres'
            refine ⟨?_, ?_, ih3, by rw [ih4, hlen2]⟩
            · intro d' hd' hnd'
              rcases List.mem_cons.1 hd' with hdd | hdd
              · subst hdd
                refine ⟨by rw [hupd], ?_⟩
                have hbo : bget bo (targetNat p w d') = bget b2 (targetNat p w d') := by
                  apply ih2
                  intro d2 hd2 hnd2
                  exact hdis d2 (List.mem_cons_of_mem d' hd2)
                    d' (List.mem_cons_self d' ds) hnd2 hnd'
                    (fun he => hdmem (he ▸ hd2))
                rw [hbo, hgt2, hupd]
              · exact ih1 d' hdd hnd'
            · intro q hq
              have h1 : bget bo q = bget b2 q := by
                apply ih2
                intro d' hd' hnd'
                exact hq d' (List.mem_cons_of_mem d hd') hnd'
              have hne : targetNat p w d ≠ q := hq d (List.mem_cons_self d ds) hnd
              rw [h1, hb2, bget_set_ne _ hne, hb1, bget_set_ne _ hne]
      · rw [cascadeLoop_cons_skip hnd] at hres
        obtain ⟨ih1, ih2, ih3, ih4⟩ := ih b bo hnodup' hst
          (fun d' hd' => hag d' (List.mem_cons_of_mem d hd'))
          (fun d' hd' => hlt d' (List.mem_cons_of_mem d hd'))
          (fun d1 h1 d2 h2 => hdis d1 (List.mem_cons_of_mem d h1)
            d2 (List.mem_cons_of_mem d h2))
          hres
        refine ⟨?_, ?_, ih3, ih4⟩
        · intro d' hd' hnd'
          rcases List.mem_cons.1 hd' with hdd | hdd
          · subst hdd; exact absurd hnd' hnd
          · exact ih1 d' hdd hnd'
        · intro q hq
          exact ih2 q (fun d' hd' => hq d' (List.mem_cons_of_mem d hd'))

/-- When the cascade throws, the direction list splits at the failing
direction: the failing target carries its (partial) update, and every cell
other than the already-processed targets — in particular every target of a
direction iterated after the failing one — is untouched. -/
theorem cascadeLoop_err (w p : Nat) (nb : DirMap NStatus) (bref : Board) :
    ∀ (ds : List Dir) (b bo : Board) (e : NarrowErr), ds.Nodup →
    stableEq b bref →
    (∀ d ∈ ds, nb.get d = .unc →
      bget b (targetNat p w d) = bget bref (targetNat p w d)) →
    (∀ d ∈ ds, nb.get d = .unc → targetNat p w d < bref.length) →
    (∀ d1 ∈ ds, ∀ d2 ∈ ds, nb.get d1 = .unc → nb.get d2 = .unc → d1 ≠ d2 →
      targetNat p w d1 ≠ targetNat p w d2) →
    cascadeLoop w p nb b ds = (bo, some e) →
    ∃ ds1 dF ds2, ds = ds1 ++ dF :: ds2 ∧ nb.get dF = .unc ∧
      (cascadeUpd bref w (targetNat p w dF)).2 = some e ∧
      bget bo (targetNat p w dF) = (cascadeUpd bref w (targetNat p w dF)).1 ∧
      (∀ q : Nat, (∀ d' ∈ ds1, nb.get d' = .unc → targetNat p w d' ≠ q) →
        targetNat p w dF ≠ q → bget bo q = bget b q) ∧
      bo.length = b.length := by
  intro ds
  induction ds with
  | nil =>
      intro b bo e _ _ _ _ _ hres
      exact Option.noConfusion (congrArg Prod.snd hres)
  | cons d ds ih =>
      intro b bo e hnodup hst hag hlt hdis hres
      have hnodup' := (List.nodup_cons.1 hnodup).2
      have hdmem := (List.nodup_cons.1 hnodup).1
      by_cases hnd : nb.get d = .unc
      · have hagd := hag d (List.mem_cons_self d ds) hnd
        have hltd := hlt d (List.mem_cons_self d ds) hnd
        obtain ⟨hstep1, hstep2, hstep3⟩ :=
          cascade_step w bref b (targetNat p w d) hst hagd hltd
        rw [cascadeLoop_cons_unc hnd] at hres
        set b1 := b.set (targetNat p w d)
          (findNeighbors b w (bget b (targetNat p w d))) with hb1
        have hltb : targetNat p w d < b.length := by
          rw [hst.1]; exact hltd
        have hlt1 : targetNat p w d < b1.length := by
          rw [hb1, List.length_set]; exact hltb
        rcases hfpt : findPossibleTiles b1 w (bget b1 (targetNat p w d)) with ⟨t', e'⟩
        rw [hfpt] at hres
        cases e' with
        | some e0 =>
            have hbo : b1.set (targetNat p w d) t' = bo := congrArg Prod.fst hres
            have he : e0 = e :=
              Option.some_inj.1 (congrArg Prod.snd hres)
            subst he
            have hupd : cascadeUpd bref w (targetNat p w d) = (t', some e0) := by
              rw [← hstep3, hfpt]
            refine ⟨[], d, ds, rfl, hnd, by rw [hupd], ?_, ?_, ?_⟩
            · rw [← hbo, bget_set_self t' hlt1, hupd]
            · intro q _ hne
              rw [← hbo, bget_set_ne _ hne, hb1, bget_set_ne _ hne]
            · rw [← hbo, List.length_set, hb1, List.length_set]
        | none =>
            have hres' : cascadeLoop w p nb (b1.set (targetNat p w d) t') ds =
                (bo, some e) := hres
            set b2 := b1.set (targetNat p w d) t' with hb2
            have hlen2 : b2.length = b.length := by
              rw [hb2, hb1, List.length_set, List.length_set]
            have hst2 : stableEq b2 bref := by
              have hcol := findPossibleTiles_collapsed b1 w (bget b1 (targetNat p w d))
              have hcon := findPossibleTiles_connections b1 w (bget b1 (targetNat p w d))
              rw [hfpt] at hcol hcon
              exact stableEq_trans (stableEq_set hcol hcon) hstep2
            have hag2 : ∀ d' ∈ ds, nb.get d' = .unc →
                bget b2 (targetNat p w d') = bget bref (targetNat p w d') := by
              intro d' hd' hnd'
              have hne : targetNat p w d ≠ targetNat p w d' :=
                hdis d (List.mem_cons_self d ds) d' (List.mem_cons_of_mem d hd') hnd hnd'
                  (fun hcon => hdmem (hcon ▸ hd'))
              rw [hb2, bget_set_ne _ hne, hb1, bget_set_ne _ hne]
              exact hag d' (List.mem_cons_of_mem d hd') hnd'
            obtain ⟨ds1, dF, ds2, hsplit, hF1, hF2, hF3, hF4, hF5⟩ :=
              ih b2 bo e hnodup' hst2 hag2
                (fun d' hd' hnd' => hlt d' (List.mem_cons_of_mem d hd') hnd')
                (fun d1 h1 d2 h2 => hdis d1 (List.mem_cons_of_mem d h1)
                  d2 (List.mem_cons_of_mem d h2))
                hres'
            refine ⟨d :: ds1, dF, ds2, by rw [hsplit]; rfl, hF1, hF2, hF3, ?_,
              by rw [hF5, hlen2]⟩
            intro q hq hFq
            have h1 : bget bo q = bget b2 q :=
              hF4 q (fun d' hd' => hq d' (List.mem_cons_of_mem d hd')) hFq
            have hne : targetNat p w d ≠ q := hq d (List.mem_cons_self d ds1) hnd
            rw [h1, hb2, bget_set_ne _ hne, hb1, bget_set_ne _ hne]
      · rw [cascadeLoop_cons_skip hnd] at hres
        obtain ⟨ds1, dF, ds2, hsplit, hF1, hF2, hF3, hF4, hF5⟩ :=
          ih b bo e hnodup' hst
            (fun d' hd' => hag d' (List.mem_cons_of_mem d hd'))
            (fun d' hd' => hlt d' (List.mem_cons_of_mem d hd'))
            (fun d1 h1 d2 h2 => hdis d1 (List.mem_cons_of_mem d h1)
              d2 (List.mem_cons_of_mem d h2))
            hres
        refine ⟨d :: ds1, dF, ds2, by rw [hsplit]; rfl, hF1, hF2, hF3, ?_, hF5⟩
        intro q hq hFq
        exact hF4 q (fun d' hd' => hq d' (List.mem_cons_of_mem d hd')) hFq

/-! ## Unfolding `collapse` -/

theorem collapsedTile_neighbors (b : Board) (p : Nat) (pick : Nat → Nat) :
    (collapsedTile b p pick).neighbors = (bget b p).neighbors := rfl

theorem collapsedTile_collapsed (b : Board) (p : Nat) (pick : Nat → Nat) :
    (collapsedTile b p pick).collapsed = true := rfl

theorem collapsedTile_possibleTiles (b : Board) (p : Nat) (pick : Nat → Nat) :
    (collapsedTile b p pick).possibleTiles = [] := rfl

theorem collapsedTile_position (b : Board) (p : Nat) (pick : Nat → Nat) :
    (collapsedTile b p pick).position = (bget b p).position := rfl

theorem collapsedTile_facing (b : Board) (p : Nat) (pick : Nat → Nat) :
    (collapsedTile b p pick).facing =
      (bget b p).possibleTiles.getD (pick (bget b p).possibleTiles.length) .blank := rfl

theorem collapsedTile_layout (b : Board) (p : Nat) (pick : Nat → Nat) :
    (collapsedTile b p pick).layout = layouts (collapsedTile b p pick).facing := rfl

theorem collapsedTile_connections (b : Board) (p : Nat) (pick : Nat → Nat) (d : Dir) :
    (collapsedTile b p pick).connections.get d =
      some (genEdge (collapsedTile b p pick).facing
        (layouts (collapsedTile b p pick).facing) d) := by
  cases d <;> rfl

theorem collapse_unfold (b : Board) (w p : Nat) (pick : Nat → Nat)
    (h : (bget b p).possibleTiles ≠ []) :
    collapse b w p pick =
      (match cascadeLoop w p (bget b p).neighbors
          (b.set p (collapsedTile b p pick)) Dir.all with
       | (b2, some e) => (b2, Except.error e)
       | (b2, none) => (b2, Except.ok true)) := by
  have hlen : (bget b p).possibleTiles.length ≠ 0 := by
    intro hcon
    exact h (List.eq_nil_of_length_eq_zero hcon)
  unfold collapse
  rw [if_pos hlen]
  rfl

/-! ## Claim C10: no rollback on a mid-cascade contradiction -/

/-- C10: when the cascade of a `collapse` throws, the exception escapes
while the collapsing tile stays collapsed — chosen variant, layout-derived
cached edge signatures and cleared candidate set intact — and the cascade
direction list splits at a failing direction such that every uncollapsed
neighbor in a direction iterated after it keeps exactly its previous
neighbor statuses and candidate set (the board stays partially cascaded).
-/
theorem collapse_no_rollback
    (b : Board) (w p : Nat) (pick : Nat → Nat) (b' : Board) (e : NarrowErr)
    (hw : 1 ≤ w)
    (hp : p < b.length)
    (hne : (bget b p).possibleTiles ≠ [])
    (hval : ∀ d, (bget b p).neighbors.get d = .unc → inBds w b.length p d)
    (hres : collapse b w p pick = (b', Except.error e)) :
    (bget b' p).collapsed = true ∧
    (bget b' p).facing = (bget b p).possibleTiles.getD
      (pick (bget b p).possibleTiles.length) .blank ∧
    (bget b' p).layout = layouts (bget b' p).facing ∧
    (∀ d, (bget b' p).connections.get d =
      some (genEdge (bget b' p).facing (layouts (bget b' p).facing) d)) ∧
    (bget b' p).possibleTiles = [] ∧
    ∃ ds1 dF ds2, Dir.all = ds1 ++ dF :: ds2 ∧
      (bget b p).neighbors.get dF = .unc ∧
      (cascadeUpd (b.set p (collapsedTile b p pick)) w (targetNat p w dF)).2 =
        some e ∧
      ∀ d' ∈ ds2, (bget b p).neighbors.get d' = .unc →
        bget b' (targetNat p w d') = bget b (targetNat p w d') := by
  rw [collapse_unfold b w p pick hne] at hres
  rcases hcas : cascadeLoop w p (bget b p).neighbors
      (b.set p (collapsedTile b p pick)) Dir.all with ⟨b2, e2⟩
  rw [hcas] at hres
  cases e2 with
  | none => exact Except.noConfusion (congrArg Prod.snd hres)
  | some e0 =>
      have hb2 : b2 = b' := congrArg Prod.fst hres
      have he0 : e0 = e := by
        have h1 := congrArg Prod.snd hres
        injection h1
      rw [hb2, he0] at hcas
      have hlenb1 : (b.set p (collapsedTile b p pick)).length = b.length :=
        List.length_set b p _
      have hlt1 : ∀ d ∈ Dir.all, (bget b p).neighbors.get d = .unc →
          targetNat p w d < (b.set p (collapsedTile b p pick)).length := by
        intro d _ hnd
        rw [hlenb1]
        exact targetNat_lt (hval d hnd)
      have hdis1 : ∀ d1 ∈ Dir.all, ∀ d2 ∈ Dir.all,
          (bget b p).neighbors.get d1 = .unc → (bget b p).neighbors.get d2 = .unc →
          d1 ≠ d2 → targetNat p w d1 ≠ targetNat p w d2 := by
        intro d1 _ d2 _ h1 h2 hne12
        exact target_pairwise_ne hw hne12 (hval d1 h1) (hval d2 h2)
      obtain ⟨ds1, dF, ds2, hsplit, hF1, hF2, hF3, hF4, hF5⟩ :=
        cascadeLoop_err w p (bget b p).neighbors (b.set p (collapsedTile b p pick))
          Dir.all (b.set p (collapsedTile b p pick)) b' e (by decide)
          (stableEq_refl _) (fun _ _ _ => rfl) hlt1 hdis1 hcas
      have hself : bget b' p = collapsedTile b p pick := by
        have h1 := hF4 p
          (fun d' _ hnd' => target_ne_self hw (hval d' hnd'))
          (target_ne_self hw (hval dF hF1))
        rw [h1]
        exact bget_set_self _ hp
      have hnodup_all : (ds1 ++ dF :: ds2).Nodup := by
        rw [← hsplit]; decide
      have hdisj : ∀ d1 ∈ ds1, ∀ d2 ∈ dF :: ds2, d1 ≠ d2 := by
        intro d1 h1 d2 h2
        exact fun hcon =>
          (List.disjoint_of_nodup_append hnodup_all) h1 (hcon ▸ h2)
      have hFnotin : dF ∉ ds2 :=
        (List.nodup_cons.1 (List.nodup_append.1 hnodup_all).2.1).1
      refine ⟨by rw [hself, collapsedTile_collapsed],
        by rw [hself, collapsedTile_facing],
        by rw [hself, collapsedTile_layout],
        fun d => by rw [hself, collapsedTile_connections],
        by rw [hself, collapsedTile_possibleTiles],
        ds1, dF, ds2, hsplit, hF1, hF2, ?_⟩
      intro d' hd' hnd'
      have hmem1 : ∀ d'' ∈ ds1, (bget b p).neighbors.get d'' = .unc →
          targetNat p w d'' ≠ targetNat p w d' := by
        intro d'' hd'' hnd''
        exact target_pairwise_ne hw
          (hdisj d'' hd'' d' (List.mem_cons_of_mem dF hd'))
          (hval d'' hnd'') (hval d' hnd')
      have hmemF : targetNat p w dF ≠ targetNat p w d' := by
        refine target_pairwise_ne hw ?_ (hval dF hF1) (hval d' hnd')
        intro hcon
        exact hFnotin (hcon ▸ hd')
      have h1 := hF4 (targetNat p w d') hmem1 hmemF
      rw [h1, bget_set_ne]
      exact (target_ne_self hw (hval d' hnd')).symm

/-- Witness for C10 on the 3×3 scenario: collapsing the center cell 4 of
`boardC` to south makes the cascade's first neighbor (cell 1) contradict,
and the remaining neighbors keep their previous state. -/
theorem collapse_no_rollback_witness :
    (bget boardC2 4).collapsed = true ∧
    (bget boardC2 4).facing = (bget boardC 4).possibleTiles.getD
      (pickAt 2 (bget boardC 4).possibleTiles.length) .blank ∧
    (bget boardC2 4).layout = layouts (bget boardC2 4).facing ∧
    (∀ d, (bget boardC2 4).connections.get d =
      some (genEdge (bget boardC2 4).facing (layouts (bget boardC2 4).facing) d)) ∧
    (bget boardC2 4).possibleTiles = [] ∧
    ∃ ds1 dF ds2, Dir.all = ds1 ++ dF :: ds2 ∧
      (bget boardC 4).neighbors.get dF = .unc ∧
      (cascadeUpd (boardC.set 4 (collapsedTile boardC 4 (pickAt 2))) 3
          (targetNat 4 3 dF)).2 = some NarrowErr.contradiction ∧
      ∀ d' ∈ ds2, (bget boardC 4).neighbors.get d' = .unc →
        bget boardC2 (targetNat 4 3 d') = bget boardC (targetNat 4 3 d') :=
  collapse_no_rollback boardC 3 4 (pickAt 2) boardC2 NarrowErr.contradiction
    (by decide) (by decide) (by decide) (by intro d; cases d <;> decide) rfl

/-! ## Helpers for the invariant proof -/

theorem Dir.opp_opp (d : Dir) : d.opp.opp = d := by cases d <;> rfl

theorem catalog_constrained_fpt (v : VName) (d : Dir) :
    count1 (fptEdge (layouts v) d) ≤ 1 := by
  cases v <;> cases d <;> decide

theorem catalog_constrained_gen (v : VName) (d : Dir) :
    count1 (genEdge v (layouts v) d) ≤ 1 := by
  cases v <;> cases d <;> decide

theorem getD_mem_of_lt {l : List VName} {i : Nat} (h : i < l.length) :
    l.getD i .blank ∈ l := by
  rw [List.getD_eq_getElem _ _ h]
  exact List.getElem_mem h

theorem findNeighbors_get (bb : Board) (w : Nat) (t : Tile) (d : Dir) :
    (findNeighbors bb w t).neighbors.get d =
      fnStatus bb w t.position (t.neighbors.get d) d := by
  cases d <;> rfl

theorem fnStatus_eq (bb : Board) (w i : Nat) (old : NStatus) (d : Dir) :
    fnStatus bb w i old d =
      if old = .oob then .oob
      else if inBds w bb.length i d then
        (if (bget bb (targetNat i w d)).collapsed then .col else old)
      else .oob := by
  simp only [fnStatus]
  by_cases ho : old = .oob
  · rw [if_pos ho, if_pos ho]
  · rw [if_neg ho, if_neg ho]
    by_cases hb : inBds w bb.length i d
    · have hb' : 0 ≤ fnTarget i w d ∧ fnTarget i w d < ((bb.length : Nat) : Int) := hb
      rw [if_pos hb, if_pos hb']
      have heq : (fnTarget i w d).toNat = targetNat i w d := by
        rw [fnTarget_eq_targetInt hb]
        rfl
      rw [heq]
      rfl
    · have hb' : ¬ (0 ≤ fnTarget i w d ∧ fnTarget i w d < ((bb.length : Nat) : Int)) := hb
      rw [if_neg hb, if_neg hb']

theorem cascadeLoop_length (w p : Nat) (nb : DirMap NStatus) :
    ∀ (ds : List Dir) (b : Board), (cascadeLoop w p nb b ds).1.length = b.length := by
  intro ds
  induction ds with
  | nil => intro b; rfl
  | cons d ds ih =>
      intro b
      by_cases hnd : nb.get d = .unc
      · rw [cascadeLoop_cons_unc hnd]
        rcases hfpt : findPossibleTiles
            (b.set (targetNat p w d) (findNeighbors b w (bget b (targetNat p w d)))) w
            (bget (b.set (targetNat p w d)
              (findNeighbors b w (bget b (targetNat p w d)))) (targetNat p w d))
          with ⟨t', e⟩
        cases e with
        | some e0 => simp [List.length_set]
        | none => simp [ih, List.length_set]
      · rw [cascadeLoop_cons_skip hnd]
        exact ih b

theorem collapse_length (b : Board) (w p : Nat) (pick : Nat → Nat) :
    (collapse b w p pick).1.length = b.length := by
  by_cases h : (bget b p).possibleTiles = []
  · rw [collapse_empty_candidates b w p pick h]
  · rw [collapse_unfold b w p pick h]
    rcases hcas : cascadeLoop w p (bget b p).neighbors
        (b.set p (collapsedTile b p pick)) Dir.all with ⟨b2, e2⟩
    have hl := cascadeLoop_length w p (bget b p).neighbors Dir.all
      (b.set p (collapsedTile b p pick))
    rw [hcas] at hl
    cases e2 <;> simpa [List.length_set] using hl

/-! ## The invariant on the fresh board -/

theorem resetBoard_fields (w h : Nat) (i : Nat) (hi : i < h * w) :
    (bget (resetBoard w h) i).position = i ∧
    (bget (resetBoard w h) i).collapsed = false ∧
    (bget (resetBoard w h) i).connections = DirMap.const none ∧
    (bget (resetBoard w h) i).possibleTiles = VName.all := by
  rw [resetBoard_spec w h i hi]
  exact ⟨rfl, rfl, rfl, rfl⟩

theorem SolverInv_init (w h : Nat) : SolverInv w (resetBoard w h) := by
  have hlen := resetBoard_length w h
  refine ⟨?_, ?_, ?_, ?_, ?_, ?_⟩
  · intro i hi
    exact (resetBoard_fields w h i (by rw [← hlen]; exact hi)).1
  · intro i hi hc
    exact absurd hc (by
      rw [(resetBoard_fields w h i (by rw [← hlen]; exact hi)).2.1]
      simp)
  · intro i hi hc
    exact absurd hc (by
      rw [(resetBoard_fields w h i (by rw [← hlen]; exact hi)).2.1]
      simp)
  · intro i hi hc d
    have hi' : i < h * w := by rw [← hlen]; exact hi
    unfold statusOk
    rw [resetBoard_status w h i hi' d]
    by_cases hb : inBds w (h * w) i d
    · rw [if_pos hb]
      have hb2 : inBds w (resetBoard w h).length i d := by rw [hlen]; exact hb
      refine ⟨hb2, ?_⟩
      have htl : targetNat i w d < h * w := by
        have := targetNat_lt hb
        exact this
      exact (resetBoard_fields w h _ htl).2.1
    · rw [if_neg hb]
      intro hcon
      rw [hlen] at hcon
      exact hb hcon
  · intro i hi hc d hcol
    exfalso
    have hi' : i < h * w := by rw [← hlen]; exact hi
    rw [resetBoard_status w h i hi' d] at hcol
    by_cases hb : inBds w (h * w) i d
    · rw [if_pos hb] at hcol; cases hcol
    · rw [if_neg hb] at hcol; cases hcol
  · intro i hi d hb hc
    exact absurd hc (by
      rw [(resetBoard_fields w h i (by rw [← hlen]; exact hi)).2.1]
      simp)

/-! ## One cascade step against an invariant board -/

theorem cascadeUpd_spec (w : Nat) {b : Board} (hInv : SolverInv w b) {p : Nat}
    (hp : p < b.length) (huncp : (bget b p).collapsed = false)
    (ct : Tile)
    (hctconn : ∀ d, ct.connections.get d =
      some (genEdge ct.facing (layouts ct.facing) d))
    {q : Nat} (hq : q < b.length) (hqp : q ≠ p)
    (huncq : (bget b q).collapsed = false) :
    (cascadeUpd (b.set p ct) w q).1.position = q ∧
    (cascadeUpd (b.set p ct) w q).1.collapsed = false ∧
    (cascadeUpd (b.set p ct) w q).1.connections = (bget b q).connections ∧
    (∀ d', match (cascadeUpd (b.set p ct) w q).1.neighbors.get d' with
      | NStatus.oob => ¬ inBds w b.length q d'
      | NStatus.unc => inBds w b.length q d' ∧
          (bget (b.set p ct) (targetNat q w d')).collapsed = false
      | NStatus.col => inBds w b.length q d' ∧
          (bget (b.set p ct) (targetNat q w d')).collapsed = true) ∧
    (∀ v, v ∈ (cascadeUpd (b.set p ct) w q).1.possibleTiles →
      v ∈ (bget b q).possibleTiles ∧
      ∀ d', (cascadeUpd (b.set p ct) w q).1.neighbors.get d' = NStatus.col →
        ∀ c, connAt (b.set p ct) w q d' = some c →
          elimB c (fptEdge (layouts v) d') = false) := by
  have hlen1 : (b.set p ct).length = b.length := List.length_set b p ct
  have hbq : bget (b.set p ct) q = bget b q :=
    bget_set_ne ct (fun hcon => hqp hcon.symm)
  have hposq : (bget b q).position = q := hInv.pos q hq
  set fn := findNeighbors (b.set p ct) w (bget (b.set p ct) q) with hfn
  have hfnpos : fn.position = q := by
    rw [hfn, findNeighbors_position, hbq, hposq]
  have hfncol : fn.collapsed = false := by
    rw [hfn, findNeighbors_collapsed, hbq, huncq]
  have hfnconn : fn.connections = (bget b q).connections := by
    rw [hfn, findNeighbors_connections, hbq]
  have hfnpt : fn.possibleTiles = (bget b q).possibleTiles := by
    rw [hfn, findNeighbors_possibleTiles, hbq]
  have hacc : ∀ d', match fn.neighbors.get d' with
      | NStatus.oob => ¬ inBds w b.length q d'
      | NStatus.unc => inBds w b.length q d' ∧
          (bget (b.set p ct) (targetNat q w d')).collapsed = false
      | NStatus.col => inBds w b.length q d' ∧
          (bget (b.set p ct) (targetNat q w d')).collapsed = true := by
    intro d'
    have hget : fn.neighbors.get d' =
        fnStatus (b.set p ct) w q ((bget b q).neighbors.get d') d' := by
      rw [hfn, findNeighbors_get, hbq, hposq]
    have hpre := hInv.status q hq huncq d'
    unfold statusOk at hpre
    rw [hget, fnStatus_eq, hlen1]
    rcases hold : (bget b q).neighbors.get d' with _ | _ | _
    · rw [hold] at hpre
      rw [if_pos rfl]
      exact hpre
    · rw [hold] at hpre
      rw [if_neg (by intro hcon; cases hcon)]
      rw [if_pos hpre.1]
      by_cases hcol : (bget (b.set p ct) (targetNat q w d')).collapsed = true
      · rw [if_pos hcol]
        exact ⟨hpre.1, hcol⟩
      · rw [if_neg hcol]
        exact ⟨hpre.1, by
          rcases hcc : (bget (b.set p ct) (targetNat q w d')).collapsed with _ | _
          · rfl
          · exact absurd hcc hcol⟩
    · rw [hold] at hpre
      rw [if_neg (by intro hcon; cases hcon)]
      rw [if_pos hpre.1]
      have htgt_ne : targetNat q w d' ≠ p := by
        intro hcon
        rw [hcon, huncp] at hpre
        exact Bool.noConfusion hpre.2
      have hflag : (bget (b.set p ct) (targetNat q w d')).collapsed = true := by
        rw [bget_set_ne ct (fun hcon => htgt_ne hcon.symm)]
        exact hpre.2
      rw [if_pos hflag]
      exact ⟨hpre.1, hflag⟩
  have hconnq : ∀ d', fn.neighbors.get d' = NStatus.col →
      connAt (b.set p ct) w fn.position d' ≠ none := by
    intro d' hcol
    have h := hacc d'
    rw [hcol] at h
    obtain ⟨hb, hflag⟩ := h
    rw [hfnpos]
    unfold connAt Tile.getConnector
    by_cases htp : targetNat q w d' = p
    · rw [htp, bget_set_self ct hp, hctconn]
      exact Option.noConfusion
    · have htlt : targetNat q w d' < b.length := targetNat_lt hb
      rw [bget_set_ne ct (fun hcon => htp hcon.symm)]
      rw [bget_set_ne ct (fun hcon => htp hcon.symm)] at hflag
      rw [hInv.conn (targetNat q w d') htlt hflag d'.opp]
      exact Option.noConfusion
  have hcup : cascadeUpd (b.set p ct) w q = findPossibleTiles (b.set p ct) w fn := rfl
  obtain ⟨herr, hmem⟩ := narrowLoop_spec (b.set p ct) w Dir.all fn
    (fun d' _ hcol => hconnq d' hcol)
  have hfst : (findPossibleTiles (b.set p ct) w fn).1 =
      (narrowLoop (b.set p ct) w fn Dir.all).1 := by
    rw [findPossibleTiles_eq (b.set p ct) w fn hconnq]
  have hnb : (cascadeUpd (b.set p ct) w q).1.neighbors = fn.neighbors := by
    rw [hcup, findPossibleTiles_neighbors]
  refine ⟨?_, ?_, ?_, ?_, ?_⟩
  · rw [hcup, findPossibleTiles_position, hfnpos]
  · rw [hcup, findPossibleTiles_collapsed, hfncol]
  · rw [hcup, findPossibleTiles_connections, hfnconn]
  · intro d'
    rw [hnb]
    exact hacc d'
  · intro v hv
    rw [hcup, hfst] at hv
    obtain ⟨hv1, hv2⟩ := (hmem v).1 hv
    rw [hfnpt] at hv1
    refine ⟨hv1, ?_⟩
    intro d' hcol c hc
    rw [hnb] at hcol
    rw [← hfnpos] at hc
    exact hv2 d' (Dir.mem_all d') hcol c hc

theorem SolverInv_step {w : Nat} {b b' : Board} {p : Nat} {pv : Nat → Nat}
    (hw : 1 ≤ w)
    (hInv : SolverInv w b)
    (hpv : ∀ n, 0 < n → pv n < n)
    (hres : collapse b w p pv = (b', Except.ok true)) :
    SolverInv w b' := by
  by_cases hney : (bget b p).possibleTiles = []
  · rw [collapse_empty_candidates b w p pv hney] at hres
    have h2 := congrArg Prod.snd hres
    have h3 : false = true := by injection h2
    exact absurd h3 (by decide)
  have hp : p < b.length := by
    by_contra hcon
    push_neg at hcon
    exact hney (by rw [bget_oob hcon]; rfl)
  have huncp : (bget b p).collapsed = false := by
    rcases hc : (bget b p).collapsed with _ | _
    · rfl
    · exact absurd (hInv.cleared p hp hc) hney
  have hkeylen : 0 < (bget b p).possibleTiles.length := List.length_pos.2 hney
  have hvalp : ∀ d, (bget b p).neighbors.get d = .unc →
      inBds w b.length p d ∧ (bget b (targetNat p w d)).collapsed = false := by
    intro d hd
    have h := hInv.status p hp huncp d
    unfold statusOk at h
    rw [hd] at h
    exact h
  rw [collapse_unfold b w p pv hney] at hres
  rcases hcas : cascadeLoop w p (bget b p).neighbors
      (b.set p (collapsedTile b p pv)) Dir.all with ⟨b2, e2⟩
  rw [hcas] at hres
  cases e2 with
  | some e0 => exact Except.noConfusion (congrArg Prod.snd hres)
  | none =>
  have hb2 : b2 = b' := congrArg Prod.fst hres
  rw [hb2] at hcas
  have hlenb1 : (b.set p (collapsedTile b p pv)).length = b.length :=
    List.length_set b p _
  obtain ⟨ihup, ihout, ihst, ihlen⟩ :=
    cascadeLoop_ok w p (bget b p).neighbors (b.set p (collapsedTile b p pv))
      Dir.all (b.set p (collapsedTile b p pv)) b' (by decide)
      (stableEq_refl _) (fun _ _ _ => rfl)
      (fun d _ hd => by rw [hlenb1]; exact targetNat_lt (hvalp d hd).1)
      (fun d1 _ d2 _ h1 h2 hne12 =>
        target_pairwise_ne hw hne12 (hvalp d1 h1).1 (hvalp d2 h2).1)
      hcas
  have hb'len : b'.length = b.length := by rw [ihlen, hlenb1]
  have hb'p : bget b' p = collapsedTile b p pv := by
    rw [ihout p (fun d _ hd => target_ne_self hw (hvalp d hd).1)]
    exact bget_set_self _ hp
  have huntouched : ∀ q, q ≠ p →
      (∀ d, (bget b p).neighbors.get d = .unc → targetNat p w d ≠ q) →
      bget b' q = bget b q := by
    intro q hqp hq
    rw [ihout q (fun d _ hd => hq d hd)]
    exact bget_set_ne _ (fun hcon => hqp hcon.symm)
  have hcolflag : ∀ j, (bget b' j).collapsed =
      (if j = p then true else (bget b j).collapsed) := by
    intro j
    rw [(ihst.2 j).1]
    by_cases hj : j = p
    · rw [if_pos hj, hj, bget_set_self _ hp]
      rfl
    · rw [if_neg hj, bget_set_ne _ (fun hcon => hj hcon.symm)]
  have hupd : ∀ d, (bget b p).neighbors.get d = .unc →
      bget b' (targetNat p w d) =
        (cascadeUpd (b.set p (collapsedTile b p pv)) w (targetNat p w d)).1 :=
    fun d hd => (ihup d (Dir.mem_all d) hd).2
  have hctfacing : (collapsedTile b p pv).facing ∈ (bget b p).possibleTiles := by
    rw [collapsedTile_facing]
    exact getD_mem_of_lt (hpv _ hkeylen)
  have htarget_facts : ∀ d, (bget b p).neighbors.get d = .unc →
      targetNat p w d < b.length ∧ targetNat p w d ≠ p ∧
      (bget b (targetNat p w d)).collapsed = false :=
    fun d hd => ⟨targetNat_lt (hvalp d hd).1, target_ne_self hw (hvalp d hd).1,
      (hvalp d hd).2⟩
  have hspec := fun (d : Dir) (hd : (bget b p).neighbors.get d = .unc) =>
    cascadeUpd_spec w hInv hp huncp (collapsedTile b p pv)
      (fun d' => collapsedTile_connections b p pv d')
      (htarget_facts d hd).1 (htarget_facts d hd).2.1 (htarget_facts d hd).2.2
  -- a cell that is neither p nor a cascade target keeps its tile
  have htri : ∀ i, i ≠ p →
      (¬ ∃ d, (bget b p).neighbors.get d = .unc ∧ targetNat p w d = i) →
      bget b' i = bget b i := by
    intro i hip hnt
    exact huntouched i hip (fun d hd hcon => hnt ⟨d, hd, hcon⟩)
  -- uncollapsed untouched cells have no unc direction pointing at p
  have hnoadj : ∀ i, i < b.length → i ≠ p → (bget b i).collapsed = false →
      (¬ ∃ d, (bget b p).neighbors.get d = .unc ∧ targetNat p w d = i) →
      ∀ d, (bget b i).neighbors.get d = .unc → targetNat i w d ≠ p := by
    intro i hi hip hc hnt d hd hcon
    have hst := hInv.status i hi hc d
    unfold statusOk at hst
    rw [hd] at hst
    obtain ⟨hbn, _⟩ := hst
    obtain ⟨hbo, hto⟩ := inBds_symm hw hi hbn
    rw [hcon] at hbo hto
    have hstp := hInv.status p hp huncp d.opp
    unfold statusOk at hstp
    rcases hsp : (bget b p).neighbors.get d.opp with _ | _ | _
    · rw [hsp] at hstp
      exact hstp hbo
    · exact hnt ⟨d.opp, hsp, hto⟩
    · rw [hsp] at hstp
      rw [hto, hc] at hstp
      exact Bool.noConfusion hstp.2
  refine ⟨?_, ?_, ?_, ?_, ?_, ?_⟩
  -- pos
  · intro i hi
    rw [hb'len] at hi
    by_cases hip : i = p
    · rw [hip, hb'p, collapsedTile_position, hInv.pos p hp]
    · by_cases hnt : ∃ d, (bget b p).neighbors.get d = .unc ∧ targetNat p w d = i
      · obtain ⟨d, hd, htd⟩ := hnt
        rw [← htd, hupd d hd, (hspec d hd).1, htd]
      · rw [htri i hip hnt, hInv.pos i hi]
  -- cleared
  · intro i hi hc
    rw [hb'len] at hi
    by_cases hip : i = p
    · rw [hip, hb'p, collapsedTile_possibleTiles]
    · by_cases hnt : ∃ d, (bget b p).neighbors.get d = .unc ∧ targetNat p w d = i
      · obtain ⟨d, hd, htd⟩ := hnt
        rw [← htd, hupd d hd] at hc
        rw [(hspec d hd).2.1] at hc
        exact Bool.noConfusion hc
      · rw [htri i hip hnt] at hc ⊢
        exact hInv.cleared i hi hc
  -- conn
  · intro i hi hc d
    rw [hb'len] at hi
    by_cases hip : i = p
    · rw [hip, hb'p]
      exact collapsedTile_connections b p pv d
    · by_cases hnt : ∃ d0, (bget b p).neighbors.get d0 = .unc ∧ targetNat p w d0 = i
      · obtain ⟨d0, hd0, htd0⟩ := hnt
        rw [← htd0, hupd d0 hd0, (hspec d0 hd0).2.1] at hc
        exact Bool.noConfusion hc
      · rw [htri i hip hnt] at hc ⊢
        exact hInv.conn i hi hc d
  -- status
  · intro i hi hc d
    rw [hb'len] at hi
    by_cases hip : i = p
    · rw [hip, hb'p, collapsedTile_collapsed] at hc
      exact Bool.noConfusion hc
    · by_cases hnt : ∃ d0, (bget b p).neighbors.get d0 = .unc ∧ targetNat p w d0 = i
      · obtain ⟨d0, hd0, htd0⟩ := hnt
        have hacc := ((hspec d0 hd0).2.2.2.1 d)
        rw [htd0] at hacc
        unfold statusOk
        rw [← htd0, hupd d0 hd0, htd0]
        rcases hsv : (cascadeUpd (b.set p (collapsedTile b p pv)) w i).1.neighbors.get d
          with _ | _ | _ <;> rw [hsv] at hacc
        · rw [hb'len]
          exact hacc
        · refine ⟨by rw [hb'len]; exact hacc.1, ?_⟩
          rw [(ihst.2 (targetNat i w d)).1]
          exact hacc.2
        · refine ⟨by rw [hb'len]; exact hacc.1, ?_⟩
          rw [(ihst.2 (targetNat i w d)).1]
          exact hacc.2
      · have hbi : bget b' i = bget b i := htri i hip hnt
        rw [hbi] at hc
        have hpre := hInv.status i hi hc d
        unfold statusOk at hpre ⊢
        rw [hbi]
        rcases hsv : (bget b i).neighbors.get d with _ | _ | _ <;> rw [hsv] at hpre
        · rw [hb'len]
          exact hpre
        · have htne : targetNat i w d ≠ p := hnoadj i hi hip hc hnt d hsv
          refine ⟨by rw [hb'len]; exact hpre.1, ?_⟩
          rw [hcolflag, if_neg htne]
          exact hpre.2
        · have htne : targetNat i w d ≠ p := by
            intro hcon
            rw [hcon, huncp] at hpre
            exact Bool.noConfusion hpre.2
          refine ⟨by rw [hb'len]; exact hpre.1, ?_⟩
          rw [hcolflag, if_neg htne]
          exact hpre.2
  -- compat
  · intro i hi hc d hcol v hv c hcv hc1 hc2
    rw [hb'len] at hi
    by_cases hip : i = p
    · rw [hip, hb'p, collapsedTile_collapsed] at hc
      exact Bool.noConfusion hc
    · by_cases hnt : ∃ d0, (bget b p).neighbors.get d0 = .unc ∧ targetNat p w d0 = i
      · obtain ⟨d0, hd0, htd0⟩ := hnt
        have hmem := (hspec d0 hd0).2.2.2.2 v (by
          rw [← htd0, hupd d0 hd0] at hv
          exact hv)
        have helim := hmem.2 d (by
          rw [← htd0, hupd d0 hd0] at hcol
          exact hcol) c (by
            rw [htd0]
            rw [← connAt_stable ihst w i d]
            exact hcv)
        unfold elimB at helim
        by_cases he : fptEdge (layouts v) d = c
        · exact he
        · exfalso
          rw [decide_eq_true hc1, decide_eq_true hc2, decide_eq_true he] at helim
          exact Bool.noConfusion helim
      · have hbi : bget b' i = bget b i := htri i hip hnt
        rw [hbi] at hc hcol hv
        have htne : targetNat i w d ≠ p := by
          have hpre := hInv.status i hi hc d
          unfold statusOk at hpre
          rw [hcol] at hpre
          intro hcon
          rw [hcon, huncp] at hpre
          exact Bool.noConfusion hpre.2
        have hcvb : connAt b w i d = some c := by
          rw [← hcv, connAt_stable ihst w i d]
          unfold connAt Tile.getConnector
          rw [bget_set_ne _ (fun hcon => htne hcon.symm)]
        exact hInv.compat i hi hc d hcol v hv c hcvb hc1 hc2
  -- edges
  · intro i hi d hbds hci hcj cp cq hcp hcq
    rw [hb'len] at hi
    rw [hb'len] at hbds
    have hnottarget : ∀ j, (bget b j).collapsed = true →
        ¬ ∃ d0, (bget b p).neighbors.get d0 = .unc ∧ targetNat p w d0 = j := by
      rintro j hj ⟨d0, hd0, htd0⟩
      rw [← htd0] at hj
      rw [(hvalp d0 hd0).2] at hj
      exact Bool.noConfusion hj
    by_cases hip : i = p
    · subst hip
      -- the neighbor at direction d was already collapsed in b
      have hjp : targetNat i w d ≠ i := target_ne_self hw hbds
      have hcjb : (bget b (targetNat i w d)).collapsed = true := by
        have hflag := hcolflag (targetNat i w d)
        rw [if_neg hjp] at hflag
        rw [← hflag]
        exact hcj
      have hjtile : bget b' (targetNat i w d) = bget b (targetNat i w d) :=
        htri (targetNat i w d) hjp (hnottarget _ hcjb)
      have hstp := hInv.status i hp huncp d
      unfold statusOk at hstp
      rcases hsv : (bget b i).neighbors.get d with _ | _ | _ <;> rw [hsv] at hstp
      · exact absurd hbds hstp
      · rw [hcjb] at hstp
        exact Bool.noConfusion hstp.2
      · -- d was collapsed: use compat at the chosen variant
        have hjlt : targetNat i w d < b.length := targetNat_lt hbds
        have hconnj := hInv.conn (targetNat i w d) hjlt hcjb d.opp
        have hcab : connAt b w i d =
            some (genEdge (bget b (targetNat i w d)).facing
              (layouts (bget b (targetNat i w d)).facing) d.opp) := by
          unfold connAt Tile.getConnector
          exact hconnj
        have hcompat := hInv.compat i hp huncp d hsv
          (collapsedTile b i pv).facing hctfacing
          _ hcab (catalog_constrained_gen _ _) (catalog_constrained_fpt _ _)
        -- identify cp and cq
        have hcp2 : cp = genEdge (collapsedTile b i pv).facing
            (layouts (collapsedTile b i pv).facing) d := by
          rw [hb'p, collapsedTile_connections] at hcp
          exact (Option.some_inj.1 hcp).symm
        have hcq2 : cq = genEdge (bget b (targetNat i w d)).facing
            (layouts (bget b (targetNat i w d)).facing) d.opp := by
          rw [hjtile] at hcq
          rw [hInv.conn (targetNat i w d) hjlt hcjb d.opp] at hcq
          exact (Option.some_inj.1 hcq).symm
        rw [hcp2, hcq2, connections_agree]
        exact hcompat
    · by_cases hjp : targetNat i w d = p
      · -- i was collapsed in b; its neighbor in direction d is the new tile
        have hcib : (bget b i).collapsed = true := by
          have := hcolflag i
          rw [if_neg hip] at this
          rw [← this]
          exact hci
        have hitile : bget b' i = bget b i :=
          htri i hip (hnottarget _ hcib)
        obtain ⟨hbo, hto⟩ := inBds_symm hw hi hbds
        rw [hjp] at hbo hto
        have hstp := hInv.status p hp huncp d.opp
        unfold statusOk at hstp
        rcases hsv : (bget b p).neighbors.get d.opp with _ | _ | _ <;> rw [hsv] at hstp
        · exact absurd hbo hstp
        · rw [hto, hcib] at hstp
          exact Bool.noConfusion hstp.2
        · have hconni := hInv.conn i hi hcib d
          have hcab : connAt b w p d.opp =
              some (genEdge (bget b i).facing (layouts (bget b i).facing) d) := by
            unfold connAt Tile.getConnector
            rw [hto, Dir.opp_opp]
            exact hconni
          have hcompat := hInv.compat p hp huncp d.opp hsv
            (collapsedTile b p pv).facing hctfacing
            _ hcab (catalog_constrained_gen _ _) (catalog_constrained_fpt _ _)
          have hcp2 : cp = genEdge (bget b i).facing (layouts (bget b i).facing) d := by
            rw [hitile] at hcp
            rw [hconni] at hcp
            exact (Option.some_inj.1 hcp).symm
          have hcq2 : cq = genEdge (collapsedTile b p pv).facing
              (layouts (collapsedTile b p pv).facing) d.opp := by
            rw [hjp, hb'p, collapsedTile_connections] at hcq
            exact (Option.some_inj.1 hcq).symm
          rw [hcp2, hcq2, connections_agree (collapsedTile b p pv).facing d.opp]
          exact hcompat.symm
      · -- both endpoints predate this collapse
        have hcib : (bget b i).collapsed = true := by
          have := hcolflag i
          rw [if_neg hip] at this
          rw [← this]
          exact hci
        have hcjb : (bget b (targetNat i w d)).collapsed = true := by
          have := hcolflag (targetNat i w d)
          rw [if_neg hjp] at this
          rw [← this]
          exact hcj
        have hitile : bget b' i = bget b i := htri i hip (hnottarget _ hcib)
        have hjtile : bget b' (targetNat i w d) = bget b (targetNat i w d) :=
          htri (targetNat i w d) hjp (hnottarget _ hcjb)
        rw [hitile] at hcp
        rw [hjtile] at hcq
        exact hInv.edges i hi d hbds hcib hcjb cp cq hcp hcq

/-! ## Claim C1: the edge-matching invariant -/

theorem Reachable_inv {w h : Nat} {b : Board} (hr : Reachable w h b) :
    SolverInv w b ∧ b.length = h * w := by
  induction hr with
  | init => exact ⟨SolverInv_init w h, resetBoard_length w h⟩
  | step b b2 p pv hr hpv hcol ih =>
      obtain ⟨hInv, hlen⟩ := ih
      have hlen2 : b2.length = b.length := by
        have hcl := collapse_length b w p pv
        rw [hcol] at hcl
        exact hcl
      have hw : 1 ≤ w := by
        by_cases hney : (bget b p).possibleTiles = []
        · rw [collapse_empty_candidates b w p pv hney] at hcol
          have h3 : false = true := by
            have h2 := congrArg Prod.snd hcol
            injection h2
          exact absurd h3 (by decide)
        · have hp : p < b.length := by
            by_contra hcon
            push_neg at hcon
            exact hney (by rw [bget_oob hcon]; rfl)
          rw [hlen] at hp
          rcases Nat.eq_zero_or_pos w with h0 | h1
          · rw [h0] at hp; simp at hp
          · exact h1
      exact ⟨SolverInv_step hw hInv hpv hcol, by rw [hlen2, hlen]⟩

/-- C1: in every board state reachable from a freshly constructed grid by
successful collapse steps over the default five-variant catalog, the facing
edge signatures of every pair of adjacent collapsed tiles agree whenever at
least one of them is constrained (with this catalog they in fact always
agree). -/
theorem edge_matching_invariant {w h : Nat} {b : Board} (hr : Reachable w h b)
    {p : Nat} {d : Dir} (hp : p < b.length) (hadj : inBds w b.length p d)
    (hcp : (bget b p).collapsed = true)
    (hcq : (bget b (targetNat p w d)).collapsed = true)
    {cp cq : List Char}
    (hconnp : (bget b p).connections.get d = some cp)
    (hconnq : (bget b (targetNat p w d)).connections.get d.opp = some cq)
    (hconstr : constrainedSig cp ∨ constrainedSig cq) :
    cp = cq := by
  obtain ⟨hInv, _⟩ := Reachable_inv hr
  exact hInv.edges p hp d hadj hcp hcq cp cq hconnp hconnq

/-- Witness for C1: the fully collapsed 1×2 board reached by two collapse
steps (east at cell 0, then north at cell 1) has matching facing
signatures "010"/"010" across its single adjacency. -/
theorem edge_matching_invariant_witness :
    (bget boardB2 0).collapsed = true ∧ (bget boardB2 1).collapsed = true ∧
    ∃ cp cq : List Char,
      (bget boardB2 0).connections.get Dir.east = some cp ∧
      (bget boardB2 1).connections.get Dir.west = some cq ∧
      constrainedSig cp ∧ cp = cq := by
  have hr : Reachable 2 1 boardB2 :=
    Reachable.step boardB boardB2 1 (pickAt 0)
      (Reachable.step (resetBoard 2 1) boardB 0 (pickAt 1) Reachable.init
        (fun n hn => Nat.mod_lt 1 hn) rfl)
      (fun n hn => Nat.mod_lt 0 hn) rfl
  refine ⟨by decide, by decide, ['0', '1', '0'], ['0', '1', '0'],
    by decide, by decide, by decide, ?_⟩
  exact edge_matching_invariant hr (p := 0) (d := Dir.east) (by decide) (by decide)
    (by decide) (by decide) (by decide) (by decide) (Or.inl (by decide))
